import Mathlib

/-!
Verification of the code-generation backend orchestration layer
(`core/codegen/mod.rs`) of a ChocoPy compiler.  The definitions below are a
shallow embedding of the Rust source: machine integers become `Nat`/`Int`
(no overflow is relevant to the verified properties), fallible operations
return `Option`/`Except`, and the mutable object-writer state is threaded
explicitly.
-/

/-! ## Special symbol names (constants from the source) -/

def BUILTIN_ALLOC_OBJ : String := "$alloc_obj"

def BUILTIN_DIV_ZERO : String := "$div_zero"

def BUILTIN_OUT_OF_BOUND : String := "$out_of_bound"

def BUILTIN_NONE_OP : String := "$none_op"

def BUILTIN_LEN : String := "$len"

def BUILTIN_INPUT : String := "$input"

def BUILTIN_PRINT : String := "$print"

def BUILTIN_INIT : String := "$init"

def BUILTIN_CHOCOPY_MAIN : String := "$chocopy_main"

def GLOBAL_SECTION : String := "$global"

/-- The eight external runtime symbols, in the order `gen_object` imports
them (`import_function` calls). -/
def externalRuntimeSymbols : List String :=
  [BUILTIN_ALLOC_OBJ, BUILTIN_DIV_ZERO, BUILTIN_OUT_OF_BOUND, BUILTIN_NONE_OP,
   BUILTIN_LEN, BUILTIN_PRINT, BUILTIN_INPUT, BUILTIN_INIT]

inductive Platform
  | Windows
  | Linux
  | Macos
deriving DecidableEq

/-! ## Debug-info data model -/

structure TypeDebug where
  core_name : String
  array_level : Nat
deriving DecidableEq

structure TypeDebugRepresentive where
  core_name : String
  max_array_level : Nat
deriving DecidableEq

structure VarDebug where
  offset : Int
  line : Nat
  name : String
  var_type : TypeDebug
deriving DecidableEq

structure LineMap where
  code_pos : Nat
  line_number : Nat
deriving DecidableEq

structure ProcedureDebug where
  decl_line : Nat
  artificial : Bool
  parent : Option String
  lines : List LineMap
  return_type : TypeDebug
  params : List VarDebug
  locals : List VarDebug
  frame_size : Nat
deriving DecidableEq

/-- `ProcedureDebug::used_types`: the return type, then the parameter
types, then the local types. -/
def ProcedureDebug.used_types (p : ProcedureDebug) : List TypeDebug :=
  [p.return_type] ++ p.params.map (fun param => param.var_type)
    ++ p.locals.map (fun loc => loc.var_type)

inductive ChunkExtra
  | Procedure (d : ProcedureDebug)
  | Data (writable : Bool)
deriving DecidableEq

inductive ChunkLinkTarget
  | Symbol (name : String) (addend : Int)
  | Data (bytes : List Nat)
deriving DecidableEq

structure ChunkLink where
  pos : Nat
  «to» : ChunkLinkTarget
deriving DecidableEq

structure Chunk where
  name : String
  code : List Nat
  links : List ChunkLink
  extra : ChunkExtra
deriving DecidableEq

structure MethodDebug where
  params : List TypeDebug
  return_type : TypeDebug
deriving DecidableEq

structure ClassDebug where
  size : Nat
  attributes : List VarDebug
  methods : List (Nat × (String × MethodDebug))
deriving DecidableEq

/-- `ClassDebug::used_types`: the attribute types. -/
def ClassDebug.used_types (c : ClassDebug) : List TypeDebug :=
  c.attributes.map (fun attr => attr.var_type)

structure CodeSet where
  chunks : List Chunk
  global_size : Nat
  globals_debug : List VarDebug
  classes_debug : List (String × ClassDebug)
deriving DecidableEq

inductive DebugChunkLinkType
  | Absolute
  | SectionRelative
  | SectionId
  | ImageRelative
deriving DecidableEq

structure DebugChunkLink where
  link_type : DebugChunkLinkType
  pos : Nat
  «to» : String
  size : Nat
deriving DecidableEq

structure DebugChunk where
  name : String
  code : List Nat
  links : List DebugChunkLink
  discardable : Bool
deriving DecidableEq

/-! ## Error kinds surfaced by the driver -/

inductive ErrKind
  | pathError
  | toolChain
deriving DecidableEq

/-! ## `windows_path_escape` (source lines 298-313)

A Rust `&Path` is modelled as `Option String`: `none` stands for a path
that is not valid UTF-8 (`Path::to_str` returns `None`). -/

/-- Rust `char::is_control`: the Unicode `Cc` category,
`U+0000`-`U+001F` and `U+007F`-`U+009F`. -/
def rustIsControl (c : Char) : Bool :=
  c.toNat ≤ 0x1f || (0x7f ≤ c.toNat && c.toNat ≤ 0x9f)

/-- One character of the blocklist in `windows_path_escape`:
a double quote, a single quote (code 39), a caret, or a control
character. -/
def windowsForbiddenChar (c : Char) : Bool :=
  c = '"' || c.toNat = 39 || c = '^' || rustIsControl c

/-- `str::ends_with('\\')`: the last character is a backslash (code 92). -/
def endsWithBackslash (s : String) : Bool :=
  match s.data.getLast? with
  | some c => c.toNat = 92
  | none => false

/-- `windows_path_escape`: reject a non-UTF-8 path, a path containing a
forbidden character, or a path ending in a backslash; return accepted
paths verbatim. -/
def windows_path_escape (path : Option String) : Except ErrKind String :=
  match path with
  | none => .error .pathError
  | some p =>
    if p.data.any windowsForbiddenChar || endsWithBackslash p then
      .error .pathError
    else
      .ok p

/-! ## Driver tail: `link` error handling and `codegen` cleanup
(source lines 675-688 and 709-719) -/

/-- `std::process::Output` of the linker subprocess. -/
structure ProcessOutput where
  success : Bool
  stdout : List Nat
  stderr : List Nat
deriving DecidableEq

/-- One write to the driver's standard error. -/
inductive StderrEvent
  | linkerReturned
  | stdoutHeader
  | raw (bytes : List Nat)
  | stderrHeader
deriving DecidableEq

/-- What `link` prints to standard error: nothing on success; on failure
the status banner, then the linker's stdout (with header) if nonempty,
then the linker's stderr (with header) if nonempty. -/
def linkReport (out : ProcessOutput) : List StderrEvent :=
  if !out.success then
    [.linkerReturned]
      ++ (if !out.stdout.isEmpty then [.stdoutHeader, .raw out.stdout] else [])
      ++ (if !out.stderr.isEmpty then [.stderrHeader, .raw out.stderr] else [])
  else
    []

/-- The value `link` returns together with what it printed.  The source
falls through to `Ok(())` after printing, whatever the linker's exit
status was. -/
def linkResult (out : ProcessOutput) : List StderrEvent × Except ErrKind Unit :=
  (linkReport out, Except.ok ())

/-- The tail of `codegen` with `no_link = false`, after `gen_object`
succeeded: run `link`, and if it returned `Ok` remove the temporary
object file.  The middle component records whether
`<tmp>/chocopy-<rand>.o` was deleted. -/
def codegenAfterGenObject (out : ProcessOutput) :
    List StderrEvent × Bool × Except ErrKind Unit :=
  let r := linkResult out
  match r.2 with
  | .ok _ => (r.1, true, .ok ())
  | .error e => (r.1, false, .error e)

/-! ## Debug-writer construction in `gen_object` (source lines 316-347) -/

inductive DwarfFlavor
  | Linux
  | Macos
deriving DecidableEq

/-- The arguments with which `gen_object` constructs its platform debug
writer. -/
inductive DebugWriterCfg
  | codeview (source_path current_dir obj_path : String)
  | dwarf (flavor : DwarfFlavor) (source_path current_dir : String)
deriving DecidableEq

/-- The `current_dir` string computed at the top of `gen_object`:
`std::env::current_dir()` (which can fail) composed with
`.map(|s| s.to_str()).ok().flatten().unwrap_or("")`.  The argument
models the `Result<PathBuf>`, with the inner `Option String` standing
for UTF-8 validity of the path. -/
def currentDirString (current_dir_buf : Except Unit (Option String)) : String :=
  match current_dir_buf with
  | .ok (some s) => s
  | .ok none => ""
  | .error _ => ""

/-- Modelled from the spec: `Codeview::new` (module `codeview`, not under
`src/`) vets the object-file path by the same rule as the link paths
(spec §8, scenario 4); the source path and current directory are taken
as given. -/
def codeviewNew (source_path current_dir obj_path : String) :
    Except ErrKind DebugWriterCfg :=
  match windows_path_escape (some obj_path) with
  | .error e => .error e
  | .ok p => .ok (.codeview source_path current_dir p)

/-- The debug-writer construction step of `gen_object`: on Windows the
object path is converted with `obj_path.as_os_str().to_str().unwrap_or("")`
(`obj_path_utf8 = none` models a non-UTF-8 path) and handed to
`Codeview::new`; on Linux and macOS a DWARF writer is built from the
source path and current directory only. -/
def makeDebugWriter (platform : Platform) (source_path : String)
    (current_dir_buf : Except Unit (Option String))
    (obj_path_utf8 : Option String) : Except ErrKind DebugWriterCfg :=
  let current_dir := currentDirString current_dir_buf
  match platform with
  | .Windows => codeviewNew source_path current_dir (obj_path_utf8.getD "")
  | .Linux => .ok (.dwarf .Linux source_path current_dir)
  | .Macos => .ok (.dwarf .Macos source_path current_dir)

/-! ## Type Usage Analyzer (source lines 227-271) -/

/-- `CodeSet::used_types`: types of every procedure chunk (return,
parameters, locals), then of every global descriptor, then of every
class descriptor's attributes. -/
def CodeSet.used_types (cs : CodeSet) : List TypeDebug :=
  (cs.chunks.filterMap fun chunk =>
      match chunk.extra with
      | ChunkExtra.Procedure procedure => some procedure.used_types
      | _ => none).flatten
    ++ cs.globals_debug.map (fun global => global.var_type)
    ++ (cs.classes_debug.map fun p => p.2.used_types).flatten

/-- Association-list lookup keyed by strings (model of the `HashMap`
lookups in the source). -/
def alookup {α : Type} : List (String × α) → String → Option α
  | [], _ => none
  | (k, v) :: rest, key => if key = k then some v else alookup rest key

/-- One step of the `used_types_representive` loop: if the core name is
already in the map take the max of the stored and the new array level,
otherwise insert the new level. -/
def updateArrayLevel (m : List (String × Nat)) (t : TypeDebug) :
    List (String × Nat) :=
  if (alookup m t.core_name).isSome then
    m.map fun p => if p.1 = t.core_name then (p.1, max p.2 t.array_level) else p
  else
    m ++ [(t.core_name, t.array_level)]

/-- `array_level_map.entry(k).or_insert(0)`. -/
def entryOrInsert (m : List (String × Nat)) (k : String) :
    List (String × Nat) :=
  if (alookup m k).isSome then m else m ++ [(k, 0)]

/-- The base names unconditionally entered, in the order of the
`or_insert` calls. -/
def baseTypeNames : List String := ["int", "str", "bool", "object", "<None>"]

/-- `CodeSet::used_types_representive`: fold all used types into a
core-name-to-max-array-level map, default the five base names to 0, and
read the map off as representatives. -/
def CodeSet.used_types_representive (cs : CodeSet) : List TypeDebugRepresentive :=
  let m := cs.used_types.foldl updateArrayLevel []
  let m := baseTypeNames.foldl entryOrInsert m
  m.map fun p => { core_name := p.1, max_array_level := p.2 }

/-- The maximum array level at which `name` occurs in `ts` (`none` when
`name` does not occur).  This is the specification-side description of
what one entry of the analyzer's map should hold. -/
def observedMax : List TypeDebug → String → Option Nat
  | [], _ => none
  | t :: ts, name =>
    let r := observedMax ts name
    if t.core_name = name then
      some (match r with
            | some v => max t.array_level v
            | none => t.array_level)
    else r

/-! ## Object Assembler model (source lines 349-530)

The `object` crate's `write::Object` is modelled by `ObjState`: the four
standard sections that chunks feed (as byte lists), the BSS length, the
symbol table (a list; `add_symbol` returns the index of the appended
symbol, `symbol_id` finds the index of the most recent symbol with a
given name, matching the crate's name map in which a later insert wins),
the emitted relocation records, and the driver's own `section_map`. -/

inductive SectionRef
  | text
  | data
  | ro
  | roReloc
  | bss
deriving DecidableEq

inductive SymKind
  | text
  | data
deriving DecidableEq

inductive SymScope
  | Linkage
  | Compilation
deriving DecidableEq

structure SymbolRec where
  name : String
  value : Nat
  size : Nat
  kind : SymKind
  scope : SymScope
  defined : Bool
  sec : Option SectionRef
deriving DecidableEq

inductive RelocKindM
  | Relative
  | Absolute
  | SectionOffset
  | SectionIndex
  | ImageOffset
deriving DecidableEq

inductive RelocEncodingM
  | X86RipRelative
  | Generic
deriving DecidableEq

structure RelocRec where
  fromSec : SectionRef
  offset : Nat
  size : Nat
  kind : RelocKindM
  encoding : RelocEncodingM
  symbol : Nat
  addend : Int
deriving DecidableEq

structure ObjState where
  text : List Nat
  data : List Nat
  ro : List Nat
  roReloc : List Nat
  bssLen : Nat
  symbols : List SymbolRec
  relocs : List RelocRec
  sectionMap : List (String × (SectionRef × Nat))
deriving DecidableEq

def emptyObj : ObjState :=
  { text := [], data := [], ro := [], roReloc := [], bssLen := 0,
    symbols := [], relocs := [], sectionMap := [] }

/-- Round `n` up to a multiple of `a` (the `object` crate's alignment of
a section's running size before an append). -/
def alignUp (n a : Nat) : Nat := ((n + a - 1) / a) * a

def sectionContent (st : ObjState) : SectionRef → List Nat
  | .text => st.text
  | .data => st.data
  | .ro => st.ro
  | .roReloc => st.roReloc
  | .bss => []

def setSectionContent (st : ObjState) (ref : SectionRef) (c : List Nat) :
    ObjState :=
  match ref with
  | .text => { st with text := c }
  | .data => { st with data := c }
  | .ro => { st with ro := c }
  | .roReloc => { st with roReloc := c }
  | .bss => st

/-- `Object::append_section_data`: align the section's current size up,
pad with zero bytes, append the data, and return the aligned offset. -/
def appendSectionData (st : ObjState) (ref : SectionRef) (bytes : List Nat)
    (align : Nat) : ObjState × Nat :=
  let cur := sectionContent st ref
  let off := alignUp cur.length align
  (setSectionContent st ref
     (cur ++ List.replicate (off - cur.length) 0 ++ bytes), off)

/-- `Object::add_symbol`: append the symbol and return its id (its index
in the table). -/
def addSymbol (st : ObjState) (s : SymbolRec) : ObjState × Nat :=
  ({ st with symbols := st.symbols ++ [s] }, st.symbols.length)

/-- `Object::add_symbol_bss`: reserve `size` bytes in the uninitialized
section at alignment `align` and point the existing symbol `id` at them,
making it defined. -/
def addSymbolBss (st : ObjState) (id : Nat) (size align : Nat) : ObjState :=
  let off := alignUp st.bssLen align
  { st with
    bssLen := off + size,
    symbols := st.symbols.enum.map fun p =>
      if p.1 = id then
        { p.2 with value := off, size := size, defined := true, sec := some .bss }
      else p.2 }

/-- `Object::symbol_id`: the index of the most recent symbol with the
given name (the crate keeps a name map in which a later `add_symbol`
overwrites an earlier entry of the same name). -/
def symbolIdFrom (syms : List SymbolRec) (name : String) : Option Nat :=
  (syms.foldl
     (fun (acc : Option Nat × Nat) s =>
       (if s.name = name then some acc.2 else acc.1, acc.2 + 1))
     (none, 0)).1

/-- A `Symbol` record for one imported runtime function
(`import_function` in `gen_object`): undefined text symbol with linkage
scope. -/
def importSymbolRec (name : String) : SymbolRec :=
  { name := name, value := 0, size := 0, kind := .text, scope := .Linkage,
    defined := false, sec := none }

/-- The `$global` symbol as first added (`SymbolSection::Undefined`,
before `add_symbol_bss` defines it). -/
def globalSymbolRec (globalSize : Nat) : SymbolRec :=
  { name := GLOBAL_SECTION, value := 0, size := globalSize, kind := .data,
    scope := .Compilation, defined := false, sec := none }

/-- The object state after `gen_object` has declared the eight external
runtime symbols and the `$global` BSS symbol (size `global_size`,
alignment 8), before any chunk is placed. -/
def initState (globalSize : Nat) : ObjState :=
  let st := externalRuntimeSymbols.foldl
    (fun st n => (addSymbol st (importSymbolRec n)).1) emptyObj
  let p := addSymbol st (globalSymbolRec globalSize)
  addSymbolBss p.1 p.2 globalSize 8

/-- The standard section a chunk is appended to: text for procedures;
data for writable data; read-only for non-writable data with no links;
read-only-with-relocations for non-writable data with links. -/
def chunkSection (c : Chunk) : SectionRef :=
  match c.extra with
  | .Procedure _ => .text
  | .Data writable =>
    if writable then .data else if c.links.isEmpty then .ro else .roReloc

/-- The alignment a chunk is appended with: 1 for procedures, 8 for
data. -/
def chunkAlign (c : Chunk) : Nat :=
  match c.extra with
  | .Procedure _ => 1
  | .Data _ => 8

/-- The symbol kind a chunk's symbol gets. -/
def chunkKind (c : Chunk) : SymKind :=
  match c.extra with
  | .Procedure _ => .text
  | .Data _ => .data

/-- Only the entry point `$chocopy_main` is exposed in linkage scope. -/
def chunkScope (c : Chunk) : SymScope :=
  if c.name = BUILTIN_CHOCOPY_MAIN then .Linkage else .Compilation

/-- First pass of the chunk loop: append the chunk's code to its
section, define its symbol, and record its placement in `section_map`. -/
def placeChunk (st : ObjState) (c : Chunk) : ObjState :=
  let ref := chunkSection c
  let p := appendSectionData st ref c.code (chunkAlign c)
  let st1 := (addSymbol p.1
    { name := c.name, value := p.2, size := c.code.length,
      kind := chunkKind c, scope := chunkScope c, defined := true,
      sec := some ref }).1
  { st1 with sectionMap := (c.name, (ref, p.2)) :: st1.sectionMap }

/-- The object state after the first pass over the chunks. -/
def pass1 (cs : CodeSet) : ObjState :=
  cs.chunks.foldl placeChunk (initState cs.global_size)

/-- The relocation parameters chosen per chunk kind: `(size, kind,
encoding, base addend)`.  Procedures get 32-bit PC-relative x86
RIP-relative relocations with base addend `-4`; data chunks get 64-bit
absolute generic relocations with base addend `0`. -/
def chunkRelocParams (c : Chunk) : Nat × RelocKindM × RelocEncodingM × Int :=
  match c.extra with
  | .Procedure _ => (32, .Relative, .X86RipRelative, -4)
  | .Data _ => (64, .Absolute, .Generic, 0)

/-- The name of the `n`-th synthesized anonymous read-only datum. -/
def strName (n : Nat) : String := "$str" ++ toString n

/-- Second pass, one link: resolve the target (a failed `symbol_id`
lookup is the source's `.unwrap()` panic, hence `none`), for a `Data`
target synthesize the `$str<id>` symbol in the read-only section at
alignment 1, then emit the relocation record.  The state is paired with
the running `data_id` counter. -/
def emitLink (fromSec : SectionRef) (fromOffset : Nat)
    (params : Nat × RelocKindM × RelocEncodingM × Int)
    (acc : ObjState × Nat) (l : ChunkLink) : Option (ObjState × Nat) :=
  let st := acc.1
  let dataId := acc.2
  match l.to with
  | .Symbol symbol addend =>
    match symbolIdFrom st.symbols symbol with
    | none => none
    | some sid =>
      some ({ st with relocs := st.relocs ++
                [{ fromSec := fromSec, offset := fromOffset + l.pos,
                   size := params.1, kind := params.2.1,
                   encoding := params.2.2.1, symbol := sid,
                   addend := params.2.2.2 + addend }] }, dataId)
  | .Data bytes =>
    let name := strName dataId
    let p := appendSectionData st .ro bytes 1
    let q := addSymbol p.1
      { name := name, value := p.2, size := 0, kind := .data,
        scope := .Compilation, defined := true, sec := some .ro }
    some ({ q.1 with relocs := q.1.relocs ++
              [{ fromSec := fromSec, offset := fromOffset + l.pos,
                 size := params.1, kind := params.2.1,
                 encoding := params.2.2.1, symbol := q.2,
                 addend := params.2.2.2 + 0 }] }, dataId + 1)

/-- Second pass, one chunk: look its placement up in `section_map` (a
missing entry is the source's indexing panic) and emit one relocation
per link. -/
def emitChunkRelocs (acc : ObjState × Nat) (c : Chunk) :
    Option (ObjState × Nat) :=
  match alookup acc.1.sectionMap c.name with
  | none => none
  | some fo => c.links.foldlM (emitLink fo.1 fo.2 (chunkRelocParams c)) acc

/-- The chunk-assembly portion of `gen_object`: declare the externals
and `$global`, place every chunk (first pass), then emit every chunk's
relocations (second pass, `data_id` starting at 0).  `none` models a
panic of the source. -/
def assembleChunks (cs : CodeSet) : Option ObjState :=
  (cs.chunks.foldlM emitChunkRelocs (pass1 cs, 0)).map fun p => p.1

/-- Number of `Data` link targets of one chunk. -/
def countDataLinks (c : Chunk) : Nat :=
  c.links.countP fun l => match l.to with
    | .Data _ => true
    | _ => false

/-- Number of `Data` link targets of the whole `CodeSet`, in the order
the second pass processes them. -/
def totalDataLinks (cs : CodeSet) : Nat :=
  (cs.chunks.map countDataLinks).sum

/-- The names of the symbols an object state defines (those not left
`SymbolSection::Undefined`). -/
def definedNames (st : ObjState) : List String :=
  (st.symbols.filter fun s => s.defined).map fun s => s.name

def isDefinedLinkage (s : SymbolRec) : Bool :=
  s.defined && (match s.scope with
                | .Linkage => true
                | .Compilation => false)

/-- Decidable rendering of the spec's chunk invariant: every `Symbol`
link target names another chunk of the `CodeSet` or one of the declared
external runtime symbols. -/
def linkTargetsKnown (cs : CodeSet) : Bool :=
  cs.chunks.all fun c => c.links.all fun l =>
    match l.to with
    | .Symbol name _ =>
      (cs.chunks.map fun c' => c'.name).contains name
        || externalRuntimeSymbols.contains name
    | .Data _ => true

/-! ## Debug-chunk relocation resolution (source lines 553-576) -/

/-- Where a debug relocation ends up pointing. -/
inductive DebugRelTarget
  | symbol (id : Nat)
  | sectionSymbol (secId : Nat)
deriving DecidableEq

/-- Resolution of one `DebugChunkLink` target: first `symbol_id` lookup
by name, else the implicit symbol of the installed debug section of that
name (`debug_section_map[&link.to]`); a missing entry in both is the
source's indexing panic, hence `none`. -/
def resolveDebugLinkTarget (symbols : List SymbolRec)
    (debug_section_map : List (String × Nat)) (target : String) :
    Option DebugRelTarget :=
  match symbolIdFrom symbols target with
  | some id => some (.symbol id)
  | none =>
    match alookup debug_section_map target with
    | some secId => some (.sectionSymbol secId)
    | none => none

/-- The placement contract for one chunk (claim C3): the object state
holds a defined symbol named `chunk.name`, of size `len(chunk.code)`,
with the kind, scope and section dictated by the chunk's `extra`, whose
value is aligned to the chunk's alignment and addresses the chunk's code
bytes inside the section. -/
def placedSymbolOk (st : ObjState) (c : Chunk) : Prop :=
  ∃ s ∈ st.symbols,
    s.name = c.name ∧ s.defined = true ∧ s.size = c.code.length ∧
    s.kind = chunkKind c ∧ s.scope = chunkScope c ∧
    s.sec = some (chunkSection c) ∧
    s.value % chunkAlign c = 0 ∧
    s.value + c.code.length ≤ (sectionContent st (chunkSection c)).length ∧
    ((sectionContent st (chunkSection c)).drop s.value).take c.code.length
      = c.code

/-- 1 for a `Data` link target, 0 otherwise (how far one link advances
the `data_id` counter). -/
def linkDataCount (l : ChunkLink) : Nat :=
  match l.to with
  | .Data _ => 1
  | _ => 0

/-- How the second pass may change the object state: it only appends to
the symbol table, the relocation list, and the read-only section; every
other component is untouched. -/
structure Pass2Ext (a b : ObjState) : Prop where
  symbols : ∃ e, b.symbols = a.symbols ++ e
  relocs : ∃ e, b.relocs = a.relocs ++ e
  ro : ∃ e, b.ro = a.ro ++ e
  text : b.text = a.text
  data : b.data = a.data
  roReloc : b.roReloc = a.roReloc
  bssLen : b.bssLen = a.bssLen
  sectionMap : b.sectionMap = a.sectionMap

/-! ## Concrete inputs used to instantiate the theorems -/

def exProcDebug : ProcedureDebug :=
  { decl_line := 1, artificial := false, parent := none, lines := [],
    return_type := { core_name := "<None>", array_level := 0 },
    params := [], locals := [], frame_size := 0 }

/-- A procedure chunk with zero relocations and zero instructions. -/
def exEmptyProcChunk : Chunk :=
  { name := "f", code := [], links := [], extra := .Procedure exProcDebug }

def exC3 : CodeSet :=
  { chunks := [exEmptyProcChunk], global_size := 0, globals_debug := [],
    classes_debug := [] }

/-- A procedure chunk with one `Symbol` link to `$print`, addend 2, at
position 1. -/
def exC4Chunk : Chunk :=
  { name := "main", code := [0, 0, 0, 0, 0],
    links := [{ pos := 1, «to» := .Symbol "$print" 2 }],
    extra := .Procedure exProcDebug }

def exC4 : CodeSet :=
  { chunks := [exC4Chunk], global_size := 0, globals_debug := [],
    classes_debug := [] }

/-- A procedure chunk holding one `Data` link target (spec scenario 3,
but inside a procedure chunk). -/
def exC5Chunk : Chunk :=
  { name := "main", code := [0, 0, 0, 0, 0, 0, 0],
    links := [{ pos := 3, «to» := .Data [65, 66, 0] }],
    extra := .Procedure exProcDebug }

def exC5 : CodeSet :=
  { chunks := [exC5Chunk], global_size := 0, globals_debug := [],
    classes_debug := [] }

def exC6Main : Chunk :=
  { name := "$chocopy_main", code := [1, 2, 3], links := [],
    extra := .Procedure exProcDebug }

def exC6 : CodeSet :=
  { chunks := [exC6Main], global_size := 16, globals_debug := [],
    classes_debug := [] }

/-- A chunk referring by symbol to a chunk that appears later in the
chunk sequence. -/
def exC7A : Chunk :=
  { name := "A", code := [0, 0, 0, 0],
    links := [{ pos := 0, «to» := .Symbol "B" 0 }],
    extra := .Procedure exProcDebug }

def exC7B : Chunk :=
  { name := "B", code := [1], links := [], extra := .Data false }

def exC7 : CodeSet :=
  { chunks := [exC7A, exC7B], global_size := 0, globals_debug := [],
    classes_debug := [] }

/-- Spec scenario 2: a single global `x: [[int]]`. -/
def exC2 : CodeSet :=
  { chunks := [], global_size := 8,
    globals_debug := [{ offset := 0, line := 1, name := "x",
                        var_type := { core_name := "int", array_level := 2 } }],
    classes_debug := [] }

/-! ## Helper lemmas -/

theorem symbolIdFrom_aux (name : String) (syms : List SymbolRec) :
    ∀ (o : Option Nat) (k : Nat),
      ((syms.foldl
          (fun (acc : Option Nat × Nat) s =>
            (if s.name = name then some acc.2 else acc.1, acc.2 + 1))
          (o, k)).1).isSome
        ↔ o.isSome ∨ ∃ s ∈ syms, s.name = name := by
  induction syms with
  | nil => intro o k; simp
  | cons s rest ih =>
    intro o k
    simp only [List.foldl_cons]
    by_cases h : s.name = name
    · simp [h, ih]
    · simp [h, ih]

theorem symbolIdFrom_isSome (syms : List SymbolRec) (name : String) :
    (symbolIdFrom syms name).isSome ↔ ∃ s ∈ syms, s.name = name := by
  unfold symbolIdFrom
  simpa using symbolIdFrom_aux name syms none 0

theorem symbolIdFrom_eq_none (syms : List SymbolRec) (name : String) :
    symbolIdFrom syms name = none ↔ ∀ s ∈ syms, s.name ≠ name := by
  rw [← Option.not_isSome_iff_eq_none, symbolIdFrom_isSome]
  push_neg
  rfl

/-! ## Claim C1 -/

/-- Claim C1 (divergence evidence): when the linker exits non-zero with
`no_link = false`, the driver does print the linker's stdout and stderr
to standard error, but `link` nevertheless returns `Ok(())`, so `codegen`
deletes the temporary object file (middle component `true`) and reports
success — it neither returns a failure status nor keeps the residual
object. -/
theorem link_failure_keeps_going :
    codegenAfterGenObject
        { success := false, stdout := [65, 66], stderr := [67, 68] } =
      ([.linkerReturned, .stdoutHeader, .raw [65, 66],
        .stderrHeader, .raw [67, 68]], true, .ok ()) := by
  rfl

/-! ## Claim C8 -/

theorem windowsForbiddenChar_iff (c : Char) :
    windowsForbiddenChar c = true ↔
      (c = '"' ∨ c.toNat = 39 ∨ c = '^' ∨ c.toNat ≤ 0x1f ∨
        (0x7f ≤ c.toNat ∧ c.toNat ≤ 0x9f)) := by
  simp [windowsForbiddenChar, rustIsControl, or_assoc]

theorem endsWithBackslash_iff (s : String) :
    endsWithBackslash s = true ↔
      ∃ c, s.data.getLast? = some c ∧ c.toNat = 92 := by
  unfold endsWithBackslash
  cases h : s.data.getLast? <;> simp

/-- Claim C8: `windows_path_escape` returns a `PathError` exactly when
the path is not valid UTF-8, contains a double quote, single quote or
caret, contains a control character, or ends in a backslash; every
accepted path is returned verbatim. -/
theorem windows_path_escape_spec (p : Option String) :
    (windows_path_escape p = .error .pathError ↔
      p = none ∨ ∃ s, p = some s ∧
        ((∃ c ∈ s.data, c = '"' ∨ c.toNat = 39 ∨ c = '^' ∨ c.toNat ≤ 0x1f ∨
            (0x7f ≤ c.toNat ∧ c.toNat ≤ 0x9f)) ∨
          ∃ c, s.data.getLast? = some c ∧ c.toNat = 92)) ∧
    (∀ s, windows_path_escape p = .ok s → p = some s) := by
  constructor
  · cases p with
    | none => simp [windows_path_escape]
    | some s =>
      simp only [windows_path_escape]
      by_cases h : (s.data.any windowsForbiddenChar || endsWithBackslash s) = true
      · rw [if_pos h]
        constructor
        · intro _
          right
          refine ⟨s, rfl, ?_⟩
          have h' : s.data.any windowsForbiddenChar = true ∨
              endsWithBackslash s = true := by simpa using h
          rcases h' with h1 | h2
          · left
            obtain ⟨c, hc, hfc⟩ := List.any_eq_true.mp h1
            exact ⟨c, hc, (windowsForbiddenChar_iff c).mp hfc⟩
          · exact Or.inr ((endsWithBackslash_iff s).mp h2)
        · intro _; rfl
      · rw [if_neg h]
        constructor
        · intro hcon; cases hcon
        · rintro (hn | ⟨t, ht, hbad⟩)
          · cases hn
          · cases ht
            exfalso
            rcases hbad with ⟨c, hc, hfc⟩ | hend
            · have hb : s.data.any windowsForbiddenChar = true :=
                List.any_eq_true.mpr ⟨c, hc, (windowsForbiddenChar_iff c).mpr hfc⟩
              simp [hb] at h
            · have hb : endsWithBackslash s = true :=
                (endsWithBackslash_iff s).mpr hend
              simp [hb] at h
  · intro s hs
    cases p with
    | none => simp [windows_path_escape] at hs
    | some t =>
      simp only [windows_path_escape] at hs
      by_cases h : (t.data.any windowsForbiddenChar || endsWithBackslash t) = true
      · rw [if_pos h] at hs; cases hs
      · rw [if_neg h] at hs
        cases hs
        rfl

theorem windows_path_escape_spec_witness :
    some "C:/tmp/a.o" = some "C:/tmp/a.o" :=
  (windows_path_escape_spec (some "C:/tmp/a.o")).2 "C:/tmp/a.o" (by rfl)

/-! ## Claim C9 -/

/-- Claim C9: `gen_object` does not fail when the current working
directory is unavailable or not valid UTF-8, nor (on Windows) when the
object path is not valid UTF-8; the empty string is silently passed to
the debug writer in place of the directory or object path, and no
`PathError` is surfaced. -/
theorem gen_object_path_defaults (sp : String)
    (buf : Except Unit (Option String)) :
    makeDebugWriter .Windows sp buf none =
        .ok (.codeview sp (currentDirString buf) "") ∧
    makeDebugWriter .Linux sp buf none =
        .ok (.dwarf .Linux sp (currentDirString buf)) ∧
    makeDebugWriter .Macos sp buf none =
        .ok (.dwarf .Macos sp (currentDirString buf)) ∧
    currentDirString (.error ()) = "" ∧
    currentDirString (.ok none) = "" := by
  exact ⟨rfl, rfl, rfl, rfl, rfl⟩

/-! ## Claim C10 -/

/-- Claim C10: resolving a `DebugChunkLink` target first looks for a
symbol of that name, then falls back to the installed debug section of
that name; when neither exists the lookup panics (modelled by `none`)
instead of returning an error. -/
theorem debug_link_resolution (symbols : List SymbolRec)
    (dmap : List (String × Nat)) (target : String) :
    (resolveDebugLinkTarget symbols dmap target = none ↔
      (∀ s ∈ symbols, s.name ≠ target) ∧ alookup dmap target = none) ∧
    ((∃ s ∈ symbols, s.name = target) →
      ∃ id, symbolIdFrom symbols target = some id ∧
        resolveDebugLinkTarget symbols dmap target = some (.symbol id)) ∧
    ((∀ s ∈ symbols, s.name ≠ target) → ∀ secId,
      alookup dmap target = some secId →
        resolveDebugLinkTarget symbols dmap target =
          some (.sectionSymbol secId)) := by
  refine ⟨?_, ?_, ?_⟩
  · cases hs : symbolIdFrom symbols target with
    | some id =>
      simp only [resolveDebugLinkTarget, hs]
      constructor
      · intro hcon; cases hcon
      · rintro ⟨hall, -⟩
        have hn : symbolIdFrom symbols target = none :=
          (symbolIdFrom_eq_none symbols target).mpr hall
        rw [hn] at hs; cases hs
    | none =>
      have hnone := (symbolIdFrom_eq_none symbols target).mp hs
      cases hd : alookup dmap target with
      | some secId => simp [resolveDebugLinkTarget, hs, hd]
      | none =>
        simp only [resolveDebugLinkTarget, hs, hd]
        simp only [true_iff, iff_true]
        exact ⟨hnone, trivial⟩
  · intro hex
    have hsome : (symbolIdFrom symbols target).isSome :=
      (symbolIdFrom_isSome symbols target).mpr hex
    obtain ⟨id, hid⟩ := Option.isSome_iff_exists.mp hsome
    exact ⟨id, hid, by simp [resolveDebugLinkTarget, hid]⟩
  · intro hnone secId hd
    have hs : symbolIdFrom symbols target = none :=
      (symbolIdFrom_eq_none symbols target).mpr hnone
    simp [resolveDebugLinkTarget, hs, hd]

theorem debug_link_resolution_witness :
    resolveDebugLinkTarget [importSymbolRec "$print"] [(".debug_info", 5)]
        ".debug_info" = some (.sectionSymbol 5) :=
  (debug_link_resolution [importSymbolRec "$print"] [(".debug_info", 5)]
      ".debug_info").2.2 (by decide) 5 (by rfl)

/-! ## Claim C2: lemmas about the analyzer's map -/

theorem alookup_append {α : Type} (m m' : List (String × α)) (k : String) :
    alookup (m ++ m') k =
      match alookup m k with
      | some v => some v
      | none => alookup m' k := by
  induction m with
  | nil => simp [alookup]
  | cons p rest ih =>
    obtain ⟨a, b⟩ := p
    by_cases h : k = a <;> simp [alookup, h, ih]

theorem alookup_eq_none_iff {α : Type} (m : List (String × α)) (k : String) :
    alookup m k = none ↔ k ∉ m.map Prod.fst := by
  induction m with
  | nil => simp [alookup]
  | cons p rest ih =>
    obtain ⟨a, b⟩ := p
    by_cases h : k = a <;> simp [alookup, h, ih]

theorem alookup_isSome_iff {α : Type} (m : List (String × α)) (k : String) :
    (alookup m k).isSome ↔ k ∈ m.map Prod.fst := by
  by_cases hk : k ∈ m.map Prod.fst
  · simp only [hk, iff_true]
    cases ha : alookup m k with
    | some v => rfl
    | none => exact absurd ((alookup_eq_none_iff m k).mp ha) (by simp [hk])
  · have hn := (alookup_eq_none_iff m k).mpr hk
    simp [hn, hk]

theorem alookup_of_mem_nodup {α : Type} (m : List (String × α))
    (h : (m.map Prod.fst).Nodup) (k : String) (v : α) :
    (k, v) ∈ m ↔ alookup m k = some v := by
  induction m with
  | nil => simp [alookup]
  | cons p rest ih =>
    obtain ⟨a, b⟩ := p
    simp only [List.map_cons, List.nodup_cons] at h
    by_cases hk : k = a
    · subst hk
      simp only [alookup, if_pos rfl, List.mem_cons]
      constructor
      · rintro (heq | hmem)
        · cases heq; rfl
        · exact absurd (List.mem_map.mpr ⟨(k, v), hmem, rfl⟩) h.1
      · rintro heq
        cases heq
        exact Or.inl rfl
    · simp only [alookup, if_neg hk, List.mem_cons]
      rw [← ih h.2]
      constructor
      · rintro (heq | hmem)
        · cases heq; exact absurd rfl hk
        · exact hmem
      · exact Or.inr

theorem alookup_map_max (t : TypeDebug) (name : String)
    (m : List (String × Nat)) :
    alookup (m.map fun p =>
        if p.1 = t.core_name then (p.1, max p.2 t.array_level) else p) name
      = (alookup m name).map fun v =>
          if name = t.core_name then max v t.array_level else v := by
  induction m with
  | nil => simp [alookup]
  | cons p rest ih =>
    obtain ⟨a, b⟩ := p
    simp only [List.map_cons]
    by_cases ha : a = t.core_name
    · have hhead :
          (if (a, b).1 = t.core_name then ((a, b).1, max (a, b).2 t.array_level)
           else (a, b)) = (a, max b t.array_level) := by
        simp [ha]
      rw [hhead]
      by_cases hn : name = a
      · subst hn
        simp [alookup, ha]
      · simp [alookup, hn, ih]
    · have hhead :
          (if (a, b).1 = t.core_name then ((a, b).1, max (a, b).2 t.array_level)
           else (a, b)) = (a, b) := by
        simp [ha]
      rw [hhead]
      by_cases hn : name = a
      · subst hn
        simp [alookup, ha]
      · simp [alookup, hn, ih]

theorem alookup_updateArrayLevel (m : List (String × Nat)) (t : TypeDebug)
    (name : String) :
    alookup (updateArrayLevel m t) name =
      if name = t.core_name then
        match alookup m name with
        | some v => some (max v t.array_level)
        | none => some t.array_level
      else alookup m name := by
  unfold updateArrayLevel
  by_cases hm : (alookup m t.core_name).isSome
  · rw [if_pos hm, alookup_map_max]
    by_cases hn : name = t.core_name
    · rw [if_pos hn]
      obtain ⟨v0, hv0⟩ := Option.isSome_iff_exists.mp hm
      rw [hn, hv0]
      simp [hn]
    · rw [if_neg hn]
      cases ha : alookup m name <;> simp [hn]
  · rw [if_neg hm, alookup_append]
    by_cases hn : name = t.core_name
    · rw [if_pos hn]
      have hme : alookup m t.core_name = none := by
        cases ha : alookup m t.core_name with
        | some v => rw [ha] at hm; simp at hm
        | none => rfl
      rw [hn, hme]
      simp [alookup]
    · rw [if_neg hn]
      cases ha : alookup m name <;> simp [alookup, hn]

theorem alookup_foldl_updateArrayLevel (ts : List TypeDebug) :
    ∀ (m : List (String × Nat)) (name : String),
      alookup (ts.foldl updateArrayLevel m) name =
        match alookup m name, observedMax ts name with
        | none, r => r
        | some v, none => some v
        | some v, some w => some (max v w) := by
  induction ts with
  | nil =>
    intro m name
    cases ha : alookup m name <;> simp [observedMax, ha]
  | cons t ts ih =>
    intro m name
    simp only [List.foldl_cons]
    rw [ih, alookup_updateArrayLevel]
    by_cases hn : name = t.core_name
    · rw [if_pos hn]
      have hcn : t.core_name = name := hn.symm
      cases ha : alookup m name <;> cases hr : observedMax ts name <;>
        simp [observedMax, hcn, hr] <;> omega
    · rw [if_neg hn]
      have hcn : ¬ t.core_name = name := fun h => hn h.symm
      cases ha : alookup m name <;> cases hr : observedMax ts name <;>
        simp [observedMax, hcn, hr]

theorem alookup_entryOrInsert (m : List (String × Nat)) (k name : String) :
    alookup (entryOrInsert m k) name =
      match alookup m name with
      | some v => some v
      | none => if name = k then some 0 else none := by
  unfold entryOrInsert
  by_cases hm : (alookup m k).isSome
  · rw [if_pos hm]
    cases ha : alookup m name with
    | some v => simp
    | none =>
      have hne : name ≠ k := by
        intro h
        rw [h] at ha
        rw [ha] at hm
        simp at hm
      simp [hne]
  · rw [if_neg hm, alookup_append]
    cases ha : alookup m name <;> simp [alookup]

theorem alookup_foldl_entryOrInsert (ks : List String) :
    ∀ (m : List (String × Nat)) (name : String),
      alookup (ks.foldl entryOrInsert m) name =
        match alookup m name with
        | some v => some v
        | none => if name ∈ ks then some 0 else none := by
  induction ks with
  | nil =>
    intro m name
    cases ha : alookup m name <;> simp [ha]
  | cons k ks ih =>
    intro m name
    simp only [List.foldl_cons]
    rw [ih, alookup_entryOrInsert]
    cases ha : alookup m name with
    | some v => simp
    | none =>
      by_cases hk : name = k
      · simp [hk]
      · simp [hk]

theorem keys_updateArrayLevel_nodup (m : List (String × Nat)) (t : TypeDebug)
    (h : (m.map Prod.fst).Nodup) :
    ((updateArrayLevel m t).map Prod.fst).Nodup := by
  unfold updateArrayLevel
  by_cases hm : (alookup m t.core_name).isSome
  · rw [if_pos hm]
    have hkeys : (m.map fun p =>
        if p.1 = t.core_name then (p.1, max p.2 t.array_level) else p).map
          Prod.fst = m.map Prod.fst := by
      rw [List.map_map]
      refine List.map_congr_left ?_
      intro p _
      by_cases hp : p.1 = t.core_name <;> simp [hp]
    rw [hkeys]
    exact h
  · rw [if_neg hm, List.map_append]
    have hk : t.core_name ∉ m.map Prod.fst := by
      rw [← alookup_eq_none_iff]
      cases ha : alookup m t.core_name with
      | some v => rw [ha] at hm; simp at hm
      | none => rfl
    simp only [List.map_cons, List.map_nil]
    rw [List.nodup_append]
    exact ⟨h, List.nodup_singleton _,
      fun x hx hx2 => hk (by rwa [List.mem_singleton.mp hx2] at hx)⟩

theorem keys_entryOrInsert_nodup (m : List (String × Nat)) (k : String)
    (h : (m.map Prod.fst).Nodup) :
    ((entryOrInsert m k).map Prod.fst).Nodup := by
  unfold entryOrInsert
  by_cases hm : (alookup m k).isSome
  · rw [if_pos hm]; exact h
  · rw [if_neg hm, List.map_append]
    have hk : k ∉ m.map Prod.fst := by
      rw [← alookup_eq_none_iff]
      cases ha : alookup m k with
      | some v => rw [ha] at hm; simp at hm
      | none => rfl
    simp only [List.map_cons, List.map_nil]
    rw [List.nodup_append]
    exact ⟨h, List.nodup_singleton _,
      fun x hx hx2 => hk (by rwa [List.mem_singleton.mp hx2] at hx)⟩

theorem keys_foldl_updateArrayLevel_nodup (ts : List TypeDebug) :
    ∀ m : List (String × Nat), (m.map Prod.fst).Nodup →
      (((ts.foldl updateArrayLevel m)).map Prod.fst).Nodup := by
  induction ts with
  | nil => intro m h; exact h
  | cons t ts ih =>
    intro m h
    simp only [List.foldl_cons]
    exact ih _ (keys_updateArrayLevel_nodup m t h)

theorem keys_foldl_entryOrInsert_nodup (ks : List String) :
    ∀ m : List (String × Nat), (m.map Prod.fst).Nodup →
      (((ks.foldl entryOrInsert m)).map Prod.fst).Nodup := by
  induction ks with
  | nil => intro m h; exact h
  | cons k ks ih =>
    intro m h
    simp only [List.foldl_cons]
    exact ih _ (keys_entryOrInsert_nodup m k h)

theorem observedMax_isSome_iff (ts : List TypeDebug) (name : String) :
    (observedMax ts name).isSome ↔ ∃ t ∈ ts, t.core_name = name := by
  induction ts with
  | nil => simp [observedMax]
  | cons t ts ih =>
    by_cases h : t.core_name = name <;> simp [observedMax, h, ih]

theorem observedMax_le (ts : List TypeDebug) (name : String) (t : TypeDebug)
    (ht : t ∈ ts) (hn : t.core_name = name) :
    ∃ v, observedMax ts name = some v ∧ t.array_level ≤ v := by
  induction ts with
  | nil => cases ht
  | cons u ts ih =>
    rcases List.mem_cons.mp ht with rfl | hmem
    · cases hr : observedMax ts name <;>
        simp [observedMax, hn, hr] <;> omega
    · obtain ⟨v, hv, hle⟩ := ih hmem
      by_cases hu : u.core_name = name
      · refine ⟨max u.array_level v, ?_, le_trans hle (le_max_right _ _)⟩
        simp [observedMax, hu, hv]
      · refine ⟨v, ?_, hle⟩
        simp [observedMax, hu, hv]

theorem observedMax_attained (ts : List TypeDebug) (name : String) :
    ∀ v : Nat, observedMax ts name = some v →
      ∃ t ∈ ts, t.core_name = name ∧ t.array_level = v := by
  induction ts with
  | nil => intro v h; cases h
  | cons u ts ih =>
    intro v h
    by_cases hu : u.core_name = name
    · rw [show observedMax (u :: ts) name =
          some (match observedMax ts name with
                | some w => max u.array_level w
                | none => u.array_level) by simp [observedMax, hu]] at h
      cases h
      cases hr : observedMax ts name with
      | none => exact ⟨u, List.mem_cons_self u ts, hu, by simp [hr]⟩
      | some w =>
        by_cases hc : u.array_level ≤ w
        · obtain ⟨t, htmem, htn, htv⟩ := ih w hr
          refine ⟨t, List.mem_cons_of_mem u htmem, htn, ?_⟩
          simp [hr, htv, max_eq_right hc]
        · refine ⟨u, List.mem_cons_self u ts, hu, ?_⟩
          simp [hr, max_eq_left (le_of_not_le hc)]
    · rw [show observedMax (u :: ts) name = observedMax ts name by
          simp [observedMax, hu]] at h
      obtain ⟨t, htmem, htn, htv⟩ := ih v h
      exact ⟨t, List.mem_cons_of_mem u htmem, htn, htv⟩

/-- Claim C2: the Type Usage Analyzer yields exactly one representative
per distinct core name appearing in any procedure's return, parameter or
local types, any global descriptor, or any class's attribute types (plus
the five base names); each representative's `max_array_level` is an
upper bound of, and attained by, the observed array levels (except for a
base name with no observed use, whose level is 0); and the five base
names are always represented. -/
theorem used_types_representive_spec (cs : CodeSet) :
    ((cs.used_types_representive.map fun r => r.core_name).Nodup) ∧
    (∀ name, (∃ r ∈ cs.used_types_representive, r.core_name = name) ↔
        ((∃ t ∈ cs.used_types, t.core_name = name) ∨ name ∈ baseTypeNames)) ∧
    (∀ r ∈ cs.used_types_representive,
        (∀ t ∈ cs.used_types, t.core_name = r.core_name →
            t.array_level ≤ r.max_array_level) ∧
        ((∃ t ∈ cs.used_types, t.core_name = r.core_name ∧
            t.array_level = r.max_array_level) ∨
          (r.max_array_level = 0 ∧ r.core_name ∈ baseTypeNames))) := by
  have hrep : cs.used_types_representive =
      (baseTypeNames.foldl entryOrInsert
        (cs.used_types.foldl updateArrayLevel [])).map
          fun p => { core_name := p.1, max_array_level := p.2 } := rfl
  have hm1 : ∀ name,
      alookup (cs.used_types.foldl updateArrayLevel []) name =
        observedMax cs.used_types name := by
    intro name
    rw [alookup_foldl_updateArrayLevel]
    cases hr : observedMax cs.used_types name <;> simp [alookup, hr]
  have hm2 : ∀ name,
      alookup (baseTypeNames.foldl entryOrInsert
          (cs.used_types.foldl updateArrayLevel [])) name =
        match observedMax cs.used_types name with
        | some v => some v
        | none => if name ∈ baseTypeNames then some 0 else none := by
    intro name
    rw [alookup_foldl_entryOrInsert, hm1 name]
  have hnodup2 : ((baseTypeNames.foldl entryOrInsert
      (cs.used_types.foldl updateArrayLevel [])).map Prod.fst).Nodup :=
    keys_foldl_entryOrInsert_nodup _ _
      (keys_foldl_updateArrayLevel_nodup _ _ (by simp))
  have hmapfst : (cs.used_types_representive.map fun r => r.core_name) =
      (baseTypeNames.foldl entryOrInsert
        (cs.used_types.foldl updateArrayLevel [])).map Prod.fst := by
    rw [hrep, List.map_map]
    rfl
  refine ⟨?_, ?_, ?_⟩
  · rw [hmapfst]
    exact hnodup2
  · intro name
    have hmem : (∃ r ∈ cs.used_types_representive, r.core_name = name) ↔
        name ∈ (baseTypeNames.foldl entryOrInsert
          (cs.used_types.foldl updateArrayLevel [])).map Prod.fst := by
      rw [← hmapfst]
      exact (List.mem_map).symm
    rw [hmem, ← alookup_isSome_iff, hm2 name]
    cases hr : observedMax cs.used_types name with
    | some v =>
      simp only [Option.isSome_some, true_iff]
      exact Or.inl ((observedMax_isSome_iff cs.used_types name).mp
        (by simp [hr]))
    | none =>
      have hno : ¬ ∃ t ∈ cs.used_types, t.core_name = name := by
        rw [← observedMax_isSome_iff]
        simp [hr]
      by_cases hb : name ∈ baseTypeNames <;> simp [hb, hno]
  · intro r hrm
    rw [hrep] at hrm
    obtain ⟨p, hp, hpr⟩ := List.mem_map.mp hrm
    have hpl : alookup (baseTypeNames.foldl entryOrInsert
        (cs.used_types.foldl updateArrayLevel [])) p.1 = some p.2 :=
      (alookup_of_mem_nodup _ hnodup2 p.1 p.2).mp hp
    have hcore : r.core_name = p.1 := by rw [← hpr]
    have hmax : r.max_array_level = p.2 := by rw [← hpr]
    rw [hm2 p.1] at hpl
    cases hobs : observedMax cs.used_types p.1 with
    | some v =>
      rw [hobs] at hpl
      have hv : p.2 = v := by
        cases hpl
        rfl
      constructor
      · intro t ht hc
        obtain ⟨v', hv', hle⟩ :=
          observedMax_le cs.used_types p.1 t ht (by rw [← hcore, hc])
        rw [hobs] at hv'
        cases hv'
        rw [hmax, hv]
        exact hle
      · left
        obtain ⟨t, htm, htn, htv⟩ := observedMax_attained cs.used_types p.1 v hobs
        exact ⟨t, htm, by rw [hcore, htn], by rw [htv, hmax, hv]⟩
    | none =>
      rw [hobs] at hpl
      by_cases hb : p.1 ∈ baseTypeNames
      · rw [if_pos hb] at hpl
        have hz : p.2 = 0 := by
          injection hpl with h
          exact h.symm
        constructor
        · intro t ht hc
          exfalso
          have : (observedMax cs.used_types p.1).isSome :=
            (observedMax_isSome_iff cs.used_types p.1).mpr
              ⟨t, ht, by rw [← hcore, hc]⟩
          rw [hobs] at this
          simp at this
        · right
          exact ⟨by rw [hmax, hz], by rw [hcore]; exact hb⟩
      · rw [if_neg hb] at hpl
        cases hpl

/-! ## Claim C3: chunk placement -/

theorem alignUp_ge (n a : Nat) (ha : 0 < a) : n ≤ alignUp n a := by
  unfold alignUp
  have h1 := Nat.div_add_mod (n + a - 1) a
  have h2 := Nat.mod_lt (n + a - 1) ha
  have h3 : a * ((n + a - 1) / a) = ((n + a - 1) / a) * a := Nat.mul_comm _ _
  omega

theorem alignUp_mod (n a : Nat) : alignUp n a % a = 0 := by
  simp [alignUp, Nat.mul_mod_left]

theorem chunkAlign_pos (c : Chunk) : 0 < chunkAlign c := by
  unfold chunkAlign
  cases c.extra <;> simp

theorem chunkSection_ne_bss (c : Chunk) : chunkSection c ≠ .bss := by
  unfold chunkSection
  cases c.extra with
  | Procedure d => simp
  | Data w => cases w <;> by_cases hl : c.links.isEmpty <;> simp [hl]

theorem setSectionContent_symbols (st : ObjState) (ref : SectionRef)
    (l : List Nat) : (setSectionContent st ref l).symbols = st.symbols := by
  cases ref <;> rfl

theorem setSectionContent_sectionMap (st : ObjState) (ref : SectionRef)
    (l : List Nat) : (setSectionContent st ref l).sectionMap = st.sectionMap := by
  cases ref <;> rfl

theorem setSectionContent_relocs (st : ObjState) (ref : SectionRef)
    (l : List Nat) : (setSectionContent st ref l).relocs = st.relocs := by
  cases ref <;> rfl

theorem sectionContent_setSectionContent (st : ObjState) (ref : SectionRef)
    (l : List Nat) (ref' : SectionRef) :
    sectionContent (setSectionContent st ref l) ref' =
      if ref' = ref ∧ ref ≠ SectionRef.bss then l
      else sectionContent st ref' := by
  cases ref <;> cases ref' <;> simp [setSectionContent, sectionContent]

theorem placeChunk_symbols (st : ObjState) (c : Chunk) :
    (placeChunk st c).symbols = st.symbols ++
      [{ name := c.name,
         value := alignUp (sectionContent st (chunkSection c)).length
           (chunkAlign c),
         size := c.code.length, kind := chunkKind c, scope := chunkScope c,
         defined := true, sec := some (chunkSection c) }] := by
  simp [placeChunk, appendSectionData, addSymbol, setSectionContent_symbols]

theorem placeChunk_sectionMap (st : ObjState) (c : Chunk) :
    (placeChunk st c).sectionMap =
      (c.name, (chunkSection c,
        alignUp (sectionContent st (chunkSection c)).length (chunkAlign c)))
        :: st.sectionMap := by
  simp [placeChunk, appendSectionData, addSymbol, setSectionContent_sectionMap]

theorem placeChunk_relocs (st : ObjState) (c : Chunk) :
    (placeChunk st c).relocs = st.relocs := by
  simp [placeChunk, appendSectionData, addSymbol, setSectionContent_relocs]

theorem placeChunk_sectionContent (st : ObjState) (c : Chunk)
    (ref : SectionRef) :
    sectionContent (placeChunk st c) ref =
      if ref = chunkSection c then
        sectionContent st ref ++
          List.replicate
            (alignUp (sectionContent st ref).length (chunkAlign c) -
              (sectionContent st ref).length) 0 ++ c.code
      else sectionContent st ref := by
  have hbss := chunkSection_ne_bss c
  have h1 : sectionContent (placeChunk st c) ref =
      sectionContent (setSectionContent st (chunkSection c)
        (sectionContent st (chunkSection c) ++
          List.replicate
            (alignUp (sectionContent st (chunkSection c)).length
              (chunkAlign c) - (sectionContent st (chunkSection c)).length) 0
          ++ c.code)) ref := by
    cases ref <;> simp [placeChunk, appendSectionData, addSymbol, sectionContent]
  rw [h1, sectionContent_setSectionContent]
  by_cases he : ref = chunkSection c
  · subst he
    simp [hbss]
  · simp [he]

theorem sliceEq_append (xs t : List Nat) (off len : Nat) (code : List Nat)
    (hb : off + len ≤ xs.length) (hs : (xs.drop off).take len = code) :
    ((xs ++ t).drop off).take len = code := by
  rw [List.drop_append_eq_append_drop]
  have hd : off - xs.length = 0 := by omega
  rw [hd, List.drop_zero, List.take_append_eq_append_take]
  have hlen : len - (xs.drop off).length = 0 := by
    rw [List.length_drop]
    omega
  rw [hlen, List.take_zero, List.append_nil]
  exact hs

theorem placedSymbolOk_mono (st : ObjState) (c c' : Chunk)
    (h : placedSymbolOk st c) : placedSymbolOk (placeChunk st c') c := by
  obtain ⟨s, hmem, hname, hdef, hsize, hkind, hscope, hsec, hmod, hb, hslice⟩ := h
  refine ⟨s, ?_, hname, hdef, hsize, hkind, hscope, hsec, hmod, ?_, ?_⟩
  · rw [placeChunk_symbols]
    exact List.mem_append_left _ hmem
  · rw [placeChunk_sectionContent]
    by_cases he : chunkSection c = chunkSection c'
    · rw [if_pos he]
      simp only [List.length_append]
      omega
    · rw [if_neg he]
      exact hb
  · rw [placeChunk_sectionContent]
    by_cases he : chunkSection c = chunkSection c'
    · rw [if_pos he]
      rw [List.append_assoc]
      exact sliceEq_append _ _ _ _ _ hb hslice
    · rw [if_neg he]
      exact hslice

theorem placedSymbolOk_new (st : ObjState) (c : Chunk) :
    placedSymbolOk (placeChunk st c) c := by
  have hpos := chunkAlign_pos c
  have hge := alignUp_ge (sectionContent st (chunkSection c)).length
    (chunkAlign c) hpos
  refine ⟨{ name := c.name,
            value := alignUp (sectionContent st (chunkSection c)).length
              (chunkAlign c),
            size := c.code.length, kind := chunkKind c, scope := chunkScope c,
            defined := true, sec := some (chunkSection c) },
          ?_, rfl, rfl, rfl, rfl, rfl, rfl, ?_, ?_, ?_⟩
  · rw [placeChunk_symbols]
    exact List.mem_append_right _ (List.mem_singleton_self _)
  · exact alignUp_mod _ _
  · rw [placeChunk_sectionContent, if_pos rfl]
    simp only [List.length_append, List.length_replicate]
    omega
  · rw [placeChunk_sectionContent, if_pos rfl]
    have hlen : (sectionContent st (chunkSection c) ++
        List.replicate
          (alignUp (sectionContent st (chunkSection c)).length (chunkAlign c) -
            (sectionContent st (chunkSection c)).length) 0).length =
        alignUp (sectionContent st (chunkSection c)).length (chunkAlign c) := by
      simp only [List.length_append, List.length_replicate]
      omega
    have hdrop := List.drop_left
      (sectionContent st (chunkSection c) ++
        List.replicate
          (alignUp (sectionContent st (chunkSection c)).length (chunkAlign c) -
            (sectionContent st (chunkSection c)).length) 0)
      c.code
    rw [hlen] at hdrop
    show ((sectionContent st (chunkSection c) ++
        List.replicate
          (alignUp (sectionContent st (chunkSection c)).length (chunkAlign c) -
            (sectionContent st (chunkSection c)).length) 0 ++
        c.code).drop
          (alignUp (sectionContent st (chunkSection c)).length
            (chunkAlign c))).take c.code.length = c.code
    rw [hdrop]
    simp

theorem placedSymbolOk_foldl (chunks : List Chunk) :
    ∀ (st : ObjState) (c : Chunk), placedSymbolOk st c →
      placedSymbolOk (chunks.foldl placeChunk st) c := by
  induction chunks with
  | nil => intro st c h; exact h
  | cons c' rest ih =>
    intro st c h
    simp only [List.foldl_cons]
    exact ih _ _ (placedSymbolOk_mono st c c' h)

theorem placedSymbolOk_of_mem (chunks : List Chunk) :
    ∀ (st : ObjState) (c : Chunk), c ∈ chunks →
      placedSymbolOk (chunks.foldl placeChunk st) c := by
  induction chunks with
  | nil => intro st c h; cases h
  | cons c' rest ih =>
    intro st c h
    simp only [List.foldl_cons]
    rcases List.mem_cons.mp h with rfl | hmem
    · exact placedSymbolOk_foldl rest _ c (placedSymbolOk_new st c)
    · exact ih _ c hmem

/-- Claim C3: every chunk of a `CodeSet` is placed by the first pass in
the section given by its `extra` (text for procedures; data for writable
data; read-only for link-free non-writable data; read-only-with-
relocations otherwise) at the alignment of the placement table (1 for
procedures, 8 for data), and a defined symbol named `chunk.name` of size
`len(chunk.code)` with the matching kind and scope points at the chunk's
bytes — including a size-0 text symbol for an empty procedure chunk. -/
theorem gen_object_chunk_placement (cs : CodeSet) (c : Chunk)
    (h : c ∈ cs.chunks) : placedSymbolOk (pass1 cs) c :=
  placedSymbolOk_of_mem cs.chunks _ c h

theorem gen_object_chunk_placement_witness :
    exEmptyProcChunk ∈ exC3.chunks ∧
      placedSymbolOk (pass1 exC3) exEmptyProcChunk :=
  ⟨List.mem_singleton_self _,
   gen_object_chunk_placement exC3 exEmptyProcChunk (List.mem_singleton_self _)⟩

/-! ## Second pass: structural lemmas -/

theorem alignUp_one (n : Nat) : alignUp n 1 = n := by
  simp [alignUp]

theorem emitLink_symbol_spec (fs : SectionRef) (fo : Nat)
    (params : Nat × RelocKindM × RelocEncodingM × Int) (st : ObjState)
    (n : Nat) (l : ChunkLink) (name : String) (a : Int)
    (hl : l.to = .Symbol name a) :
    emitLink fs fo params (st, n) l =
      match symbolIdFrom st.symbols name with
      | none => none
      | some sid =>
        some ({ st with relocs := st.relocs ++
            [{ fromSec := fs, offset := fo + l.pos, size := params.1,
               kind := params.2.1, encoding := params.2.2.1, symbol := sid,
               addend := params.2.2.2 + a }] }, n) := by
  unfold emitLink
  rw [hl]

theorem emitLink_data_spec (fs : SectionRef) (fo : Nat)
    (params : Nat × RelocKindM × RelocEncodingM × Int) (st : ObjState)
    (n : Nat) (l : ChunkLink) (bytes : List Nat)
    (hl : l.to = .Data bytes) :
    emitLink fs fo params (st, n) l =
      some ({ st with
          ro := st.ro ++ bytes,
          symbols := st.symbols ++
            [{ name := strName n, value := st.ro.length, size := 0,
               kind := .data, scope := .Compilation, defined := true,
               sec := some .ro }],
          relocs := st.relocs ++
            [{ fromSec := fs, offset := fo + l.pos, size := params.1,
               kind := params.2.1, encoding := params.2.2.1,
               symbol := st.symbols.length, addend := params.2.2.2 + 0 }] },
        n + 1) := by
  unfold emitLink
  rw [hl]
  simp [appendSectionData, addSymbol, sectionContent, setSectionContent,
    alignUp_one]

theorem pass2Ext_refl (a : ObjState) : Pass2Ext a a :=
  ⟨⟨[], by simp⟩, ⟨[], by simp⟩, ⟨[], by simp⟩, rfl, rfl, rfl, rfl, rfl⟩

theorem pass2Ext_trans {a b c : ObjState} (h1 : Pass2Ext a b)
    (h2 : Pass2Ext b c) : Pass2Ext a c := by
  obtain ⟨⟨e1, he1⟩, ⟨r1, hr1⟩, ⟨o1, ho1⟩, t1, d1, rr1, bl1, m1⟩ := h1
  obtain ⟨⟨e2, he2⟩, ⟨r2, hr2⟩, ⟨o2, ho2⟩, t2, d2, rr2, bl2, m2⟩ := h2
  refine ⟨⟨e1 ++ e2, ?_⟩, ⟨r1 ++ r2, ?_⟩, ⟨o1 ++ o2, ?_⟩,
    t2.trans t1, d2.trans d1, rr2.trans rr1, bl2.trans bl1, m2.trans m1⟩
  · rw [he2, he1, List.append_assoc]
  · rw [hr2, hr1, List.append_assoc]
  · rw [ho2, ho1, List.append_assoc]

theorem pass2Ext_emitLink {fs : SectionRef} {fo : Nat}
    {params : Nat × RelocKindM × RelocEncodingM × Int}
    {acc : ObjState × Nat} {l : ChunkLink} {b : ObjState × Nat}
    (h : emitLink fs fo params acc l = some b) :
    Pass2Ext acc.1 b.1 ∧ b.2 = acc.2 + linkDataCount l := by
  obtain ⟨st, n⟩ := acc
  cases hl : l.to with
  | Symbol name a =>
    rw [emitLink_symbol_spec fs fo params st n l name a hl] at h
    cases hs : symbolIdFrom st.symbols name with
    | none => rw [hs] at h; cases h
    | some sid =>
      rw [hs] at h
      cases h
      refine ⟨⟨⟨[], by simp⟩, ⟨_, rfl⟩, ⟨[], by simp⟩, rfl, rfl, rfl, rfl, rfl⟩,
        ?_⟩
      simp [linkDataCount, hl]
  | Data bytes =>
    rw [emitLink_data_spec fs fo params st n l bytes hl] at h
    cases h
    refine ⟨⟨⟨_, rfl⟩, ⟨_, rfl⟩, ⟨_, rfl⟩, rfl, rfl, rfl, rfl, rfl⟩, ?_⟩
    simp [linkDataCount, hl]

theorem pass2Ext_links (fs : SectionRef) (fo : Nat)
    (params : Nat × RelocKindM × RelocEncodingM × Int)
    (links : List ChunkLink) :
    ∀ (acc b : ObjState × Nat),
      links.foldlM (emitLink fs fo params) acc = some b →
      Pass2Ext acc.1 b.1 ∧ b.2 = acc.2 + (links.map linkDataCount).sum := by
  induction links with
  | nil =>
    intro acc b h
    cases h
    exact ⟨pass2Ext_refl _, by simp⟩
  | cons l ls ih =>
    intro acc b h
    rw [List.foldlM_cons] at h
    obtain ⟨mid, hmid, hrest⟩ := Option.bind_eq_some.mp h
    obtain ⟨hx1, hx2⟩ := pass2Ext_emitLink hmid
    obtain ⟨hy1, hy2⟩ := ih mid b hrest
    refine ⟨pass2Ext_trans hx1 hy1, ?_⟩
    rw [hy2, hx2]
    simp [Nat.add_assoc]

theorem sum_linkDataCount (links : List ChunkLink) :
    (links.map linkDataCount).sum =
      links.countP fun l =>
        match l.to with
        | ChunkLinkTarget.Data _ => true
        | _ => false := by
  induction links with
  | nil => rfl
  | cons l ls ih =>
    rw [List.map_cons, List.sum_cons, List.countP_cons]
    cases hl : l.to <;> simp [linkDataCount, hl, ih] <;> omega

theorem pass2Ext_emitChunkRelocs {acc : ObjState × Nat} {c : Chunk}
    {b : ObjState × Nat} (h : emitChunkRelocs acc c = some b) :
    Pass2Ext acc.1 b.1 ∧ b.2 = acc.2 + countDataLinks c := by
  unfold emitChunkRelocs at h
  cases hm : alookup acc.1.sectionMap c.name with
  | none => rw [hm] at h; cases h
  | some fo =>
    rw [hm] at h
    obtain ⟨h1, h2⟩ := pass2Ext_links fo.1 fo.2 (chunkRelocParams c) c.links acc b h
    refine ⟨h1, ?_⟩
    rw [h2, sum_linkDataCount]
    rfl

theorem pass2Ext_chunks (chunks : List Chunk) :
    ∀ (acc b : ObjState × Nat),
      chunks.foldlM emitChunkRelocs acc = some b →
      Pass2Ext acc.1 b.1 ∧ b.2 = acc.2 + (chunks.map countDataLinks).sum := by
  induction chunks with
  | nil =>
    intro acc b h
    cases h
    exact ⟨pass2Ext_refl _, by simp⟩
  | cons c cs ih =>
    intro acc b h
    rw [List.foldlM_cons] at h
    obtain ⟨mid, hmid, hrest⟩ := Option.bind_eq_some.mp h
    obtain ⟨hx1, hx2⟩ := pass2Ext_emitChunkRelocs hmid
    obtain ⟨hy1, hy2⟩ := ih mid b hrest
    refine ⟨pass2Ext_trans hx1 hy1, ?_⟩
    rw [hy2, hx2]
    simp [Nat.add_assoc]

/-! ## Claim C4 -/

/-- Claim C4: every `Symbol(name, a)` link of a chunk produces one
relocation at the chunk's section offset plus `link.pos`, with width 32,
PC-relative kind, x86 RIP-relative encoding and addend `a - 4` when the
chunk is a procedure, and width 64, absolute kind, generic encoding and
addend `a` when the chunk is data. -/
theorem gen_object_symbol_relocation (cs : CodeSet) (st : ObjState)
    (hA : assembleChunks cs = some st) (c : Chunk) (l : ChunkLink)
    (hc : c ∈ cs.chunks) (hl : l ∈ c.links) (name : String) (a : Int)
    (ht : l.to = .Symbol name a) :
    ∃ sec fo, alookup st.sectionMap c.name = some (sec, fo) ∧
      ∃ r ∈ st.relocs,
        r.fromSec = sec ∧ r.offset = fo + l.pos ∧
        (match c.extra with
         | ChunkExtra.Procedure _ =>
             r.size = 32 ∧ r.kind = .Relative ∧
             r.encoding = .X86RipRelative ∧ r.addend = a - 4
         | ChunkExtra.Data _ =>
             r.size = 64 ∧ r.kind = .Absolute ∧
             r.encoding = .Generic ∧ r.addend = a) := by
  unfold assembleChunks at hA
  obtain ⟨p, hfold, hp⟩ := Option.map_eq_some'.mp hA
  obtain ⟨pre, post, hsplit⟩ := List.append_of_mem hc
  have hextAll := pass2Ext_chunks cs.chunks (pass1 cs, 0) p hfold
  rw [hsplit] at hfold
  rw [List.foldlM_append] at hfold
  obtain ⟨accA, hpre, hrest⟩ := Option.bind_eq_some.mp hfold
  rw [List.foldlM_cons] at hrest
  obtain ⟨accB, hc1, hpost⟩ := Option.bind_eq_some.mp hrest
  have hextA := pass2Ext_chunks pre (pass1 cs, 0) accA hpre
  unfold emitChunkRelocs at hc1
  cases hm : alookup accA.1.sectionMap c.name with
  | none => rw [hm] at hc1; cases hc1
  | some fo =>
    rw [hm] at hc1
    have hc2 : c.links.foldlM (emitLink fo.1 fo.2 (chunkRelocParams c)) accA
        = some accB := hc1
    refine ⟨fo.1, fo.2, ?_, ?_⟩
    · rw [← hp]
      rw [hextAll.1.sectionMap]
      rw [hextA.1.sectionMap] at hm
      exact hm
    · obtain ⟨lpre, lpost, hlsplit⟩ := List.append_of_mem hl
      rw [hlsplit] at hc2
      rw [List.foldlM_append] at hc2
      obtain ⟨accC, hlpre, hlrest⟩ := Option.bind_eq_some.mp hc2
      rw [List.foldlM_cons] at hlrest
      obtain ⟨accD, hemit, hlpost⟩ := Option.bind_eq_some.mp hlrest
      obtain ⟨stC, nC⟩ := accC
      rw [emitLink_symbol_spec fo.1 fo.2 (chunkRelocParams c) stC nC l name a
        ht] at hemit
      cases hs : symbolIdFrom stC.symbols name with
      | none => rw [hs] at hemit; cases hemit
      | some sid =>
        rw [hs] at hemit
        cases hemit
        have hextD1 := pass2Ext_links fo.1 fo.2 (chunkRelocParams c) lpost
          _ accB hlpost
        have hextD2 := pass2Ext_chunks post accB p hpost
        have hext := pass2Ext_trans hextD1.1 hextD2.1
        obtain ⟨e, he⟩ := hext.relocs
        rw [← hp]
        refine ⟨{ fromSec := fo.1, offset := fo.2 + l.pos,
                  size := (chunkRelocParams c).1,
                  kind := (chunkRelocParams c).2.1,
                  encoding := (chunkRelocParams c).2.2.1, symbol := sid,
                  addend := (chunkRelocParams c).2.2.2 + a }, ?_, rfl, rfl, ?_⟩
        · rw [he]
          refine List.mem_append_left e ?_
          exact List.mem_append_right _ (List.mem_singleton_self _)
        · cases hce : c.extra with
          | Procedure d =>
            refine ⟨by simp [chunkRelocParams, hce], by simp [chunkRelocParams, hce],
              by simp [chunkRelocParams, hce], ?_⟩
            simp only [chunkRelocParams, hce]
            omega
          | Data w =>
            refine ⟨by simp [chunkRelocParams, hce], by simp [chunkRelocParams, hce],
              by simp [chunkRelocParams, hce], ?_⟩
            simp only [chunkRelocParams, hce]
            omega

theorem gen_object_symbol_relocation_witness :
    ∃ st, assembleChunks exC4 = some st ∧
      ∃ sec fo, alookup st.sectionMap exC4Chunk.name = some (sec, fo) ∧
        ∃ r ∈ st.relocs, r.fromSec = sec ∧ r.offset = fo + 1 ∧
          r.size = 32 ∧ r.kind = .Relative ∧ r.encoding = .X86RipRelative ∧
          r.addend = -2 := by
  cases hA : assembleChunks exC4 with
  | none => exact absurd hA (by decide)
  | some st =>
    have h := gen_object_symbol_relocation exC4 st hA exC4Chunk
      { pos := 1, «to» := .Symbol "$print" 2 }
      (List.mem_singleton_self _) (List.mem_singleton_self _) "$print" 2 rfl
    obtain ⟨sec, fo, hm, r, hr, hfs, hoff, hmatch⟩ := h
    have hmatch' : r.size = 32 ∧ r.kind = .Relative ∧
        r.encoding = .X86RipRelative ∧ r.addend = 2 - 4 := hmatch
    refine ⟨st, rfl, sec, fo, hm, r, hr, hfs, hoff, hmatch'.1, hmatch'.2.1,
      hmatch'.2.2.1, ?_⟩
    rw [hmatch'.2.2.2]
    decide

/-! ## Claim C5 -/

/-- Claim C5 counterexample: `exC5` holds a single `Data` link target
inside a *procedure* chunk; the emitted relocation for it carries addend
`-4` (the procedure base addend plus the synthetic symbol's 0), not 0 as
the claim states for every chunk kind. -/
theorem data_target_addend_counterexample :
    (assembleChunks exC5).map (fun st => st.relocs.map fun r => r.addend) =
      some [-4] := by
  decide

/-- Claim C5 (amended): for every `Data(bytes)` link target — here the
one at position `lpre` within chunk `c` at position `pre` of the chunk
sequence — the Assembler allocates the fresh name `$str<N>` where `N`
counts the `Data` targets processed before it (chunk order, then link
order, counter starting at 0), appends the bytes to the read-only
section with no padding, defines a compilation-scope data symbol
pointing at them, and emits a relocation targeting that symbol with
symbol-addend 0 — so the relocation's addend field equals the chunk-kind
base addend (`0` for data chunks, `-4` for procedure chunks). -/
theorem gen_object_data_target (cs : CodeSet) (st : ObjState)
    (hA : assembleChunks cs = some st) (pre post : List Chunk) (c : Chunk)
    (lpre lpost : List ChunkLink) (l : ChunkLink) (bytes : List Nat)
    (hsplit : cs.chunks = pre ++ c :: post)
    (hlsplit : c.links = lpre ++ l :: lpost)
    (ht : l.to = .Data bytes) :
    ∃ idx v r,
      st.symbols[idx]? = some
        { name := strName ((pre.map countDataLinks).sum +
            (lpre.map linkDataCount).sum),
          value := v, size := 0, kind := .data, scope := .Compilation,
          defined := true, sec := some .ro } ∧
      v + bytes.length ≤ st.ro.length ∧
      (st.ro.drop v).take bytes.length = bytes ∧
      r ∈ st.relocs ∧ r.symbol = idx ∧
      (∃ sec fo, alookup st.sectionMap c.name = some (sec, fo) ∧
        r.fromSec = sec ∧ r.offset = fo + l.pos) ∧
      r.size = (chunkRelocParams c).1 ∧ r.kind = (chunkRelocParams c).2.1 ∧
      r.encoding = (chunkRelocParams c).2.2.1 ∧
      r.addend = (chunkRelocParams c).2.2.2 + 0 := by
  unfold assembleChunks at hA
  obtain ⟨p, hfold, hp⟩ := Option.map_eq_some'.mp hA
  rw [hsplit] at hfold
  rw [List.foldlM_append] at hfold
  obtain ⟨accA, hpre, hrest⟩ := Option.bind_eq_some.mp hfold
  rw [List.foldlM_cons] at hrest
  obtain ⟨accB, hc1, hpost⟩ := Option.bind_eq_some.mp hrest
  have hcountA := pass2Ext_chunks pre (pass1 cs, 0) accA hpre
  unfold emitChunkRelocs at hc1
  cases hm : alookup accA.1.sectionMap c.name with
  | none => rw [hm] at hc1; cases hc1
  | some fo =>
    rw [hm] at hc1
    have hc2 : c.links.foldlM (emitLink fo.1 fo.2 (chunkRelocParams c)) accA
        = some accB := hc1
    rw [hlsplit] at hc2
    rw [List.foldlM_append] at hc2
    obtain ⟨accC, hlpre, hlrest⟩ := Option.bind_eq_some.mp hc2
    rw [List.foldlM_cons] at hlrest
    obtain ⟨accD, hemit, hlpost⟩ := Option.bind_eq_some.mp hlrest
    have hcountC := pass2Ext_links fo.1 fo.2 (chunkRelocParams c) lpre
      accA accC hlpre
    obtain ⟨stC, nC⟩ := accC
    rw [emitLink_data_spec fo.1 fo.2 (chunkRelocParams c) stC nC l bytes
      ht] at hemit
    cases hemit
    have hN : nC = (pre.map countDataLinks).sum +
        (lpre.map linkDataCount).sum := by
      have h1 : accA.2 = (pre.map countDataLinks).sum := by
        have := hcountA.2
        simpa using this
      have h2 := hcountC.2
      simp only [h1] at h2
      exact h2
    have hextD1 := pass2Ext_links fo.1 fo.2 (chunkRelocParams c) lpost
      _ accB hlpost
    have hextD2 := pass2Ext_chunks post accB p hpost
    have hext := pass2Ext_trans hextD1.1 hextD2.1
    obtain ⟨esym, hesym⟩ := hext.symbols
    obtain ⟨erel, herel⟩ := hext.relocs
    obtain ⟨ero, hero⟩ := hext.ro
    refine ⟨stC.symbols.length, stC.ro.length,
      { fromSec := fo.1, offset := fo.2 + l.pos,
        size := (chunkRelocParams c).1, kind := (chunkRelocParams c).2.1,
        encoding := (chunkRelocParams c).2.2.1,
        symbol := stC.symbols.length,
        addend := (chunkRelocParams c).2.2.2 + 0 },
      ?_, ?_, ?_, ?_, rfl, ?_, rfl, rfl, rfl, rfl⟩
    · rw [← hp, hesym]
      simp only [List.append_assoc]
      rw [List.getElem?_append_right (Nat.le_refl _)]
      simp [hN]
    · rw [← hp, hero]
      simp only [List.length_append]
      have : stC.ro.length + bytes.length ≤ (stC.ro ++ bytes).length := by
        simp
      simp only [List.length_append] at this
      omega
    · rw [← hp, hero]
      simp only [List.append_assoc]
      have hb : stC.ro.length + bytes.length ≤ (stC.ro ++ (bytes ++ ero)).length := by
        simp [Nat.add_le_add_iff_left]
      have hs : ((stC.ro ++ (bytes ++ ero)).drop stC.ro.length).take
          bytes.length = bytes := by
        rw [List.drop_left]
        rw [List.take_append_eq_append_take]
        simp
      exact hs
    · rw [← hp, herel]
      refine List.mem_append_left erel ?_
      exact List.mem_append_right _ (List.mem_singleton_self _)
    · refine ⟨fo.1, fo.2, ?_, rfl, rfl⟩
      rw [← hp]
      have hextAll1 := pass2Ext_links fo.1 fo.2 (chunkRelocParams c) lpre
        accA (stC, nC) hlpre
      rw [hext.sectionMap]
      have hCmap : stC.sectionMap = accA.1.sectionMap := hextAll1.1.sectionMap
      calc alookup ({ stC with
            ro := stC.ro ++ bytes,
            symbols := stC.symbols ++ [_], relocs := stC.relocs ++ [_] }
              : ObjState).sectionMap c.name
          = alookup stC.sectionMap c.name := rfl
        _ = alookup accA.1.sectionMap c.name := by rw [hCmap]
        _ = some (fo.1, fo.2) := hm

theorem gen_object_data_target_witness :
    ∃ st, assembleChunks exC5 = some st ∧
      ∃ idx v r,
        st.symbols[idx]? = some
          { name := strName 0, value := v, size := 0, kind := .data,
            scope := .Compilation, defined := true, sec := some .ro } ∧
        (st.ro.drop v).take 3 = [65, 66, 0] ∧
        r ∈ st.relocs ∧ r.symbol = idx ∧ r.addend = -4 := by
  cases hA : assembleChunks exC5 with
  | none => exact absurd hA (by decide)
  | some st =>
    have h := gen_object_data_target exC5 st hA [] [] exC5Chunk [] []
      { pos := 3, «to» := .Data [65, 66, 0] } [65, 66, 0] rfl rfl rfl
    obtain ⟨idx, v, r, h1, h2, h3, h4, h5, h6, h7, h8, h9, h10⟩ := h
    refine ⟨st, rfl, idx, v, r, h1, h3, h4, h5, ?_⟩
    rw [h10]
    decide

/-! ## Claims C6 and C7: symbol inventory and two-pass resolution -/

theorem initState_symbols (g : Nat) :
    (initState g).symbols = externalRuntimeSymbols.map importSymbolRec ++
      [{ name := GLOBAL_SECTION, value := 0, size := g, kind := .data,
         scope := .Compilation, defined := true, sec := some .bss }] := by
  unfold initState addSymbolBss addSymbol
  simp [externalRuntimeSymbols, emptyObj, importSymbolRec, globalSymbolRec,
    alignUp, GLOBAL_SECTION, List.enum, List.enumFrom]

theorem initState_sectionMap (g : Nat) : (initState g).sectionMap = [] := by
  rfl

theorem initState_relocs (g : Nat) : (initState g).relocs = [] := by
  rfl

theorem strName_data (n : Nat) :
    (strName n).data = '$' :: 's' :: 't' :: 'r' :: (toString n).data := by
  show ("$str" ++ toString n).data = _
  rw [String.data_append]
  rfl

theorem strName_second_char (n : Nat) : (strName n).data[1]? = some 's' := by
  rw [strName_data]
  rfl

theorem strName_ne (n : Nat) (t : String) (ht : ¬ t.data[1]? = some 's') :
    strName n ≠ t :=
  fun h => ht (h ▸ strName_second_char n)

theorem strName_ne_main (n : Nat) : strName n ≠ BUILTIN_CHOCOPY_MAIN :=
  strName_ne n BUILTIN_CHOCOPY_MAIN (by decide)

theorem strName_not_external (n : Nat) :
    strName n ∉ externalRuntimeSymbols := by
  intro h
  simp only [externalRuntimeSymbols, BUILTIN_ALLOC_OBJ, BUILTIN_DIV_ZERO,
    BUILTIN_OUT_OF_BOUND, BUILTIN_NONE_OP, BUILTIN_LEN, BUILTIN_PRINT,
    BUILTIN_INPUT, BUILTIN_INIT, List.mem_cons, List.not_mem_nil,
    or_false] at h
  rcases h with h | h | h | h | h | h | h | h <;>
    exact strName_ne n _ (by decide) h

theorem pass1_symbols_names (chunks : List Chunk) :
    ∀ st : ObjState, ∃ e,
      (chunks.foldl placeChunk st).symbols = st.symbols ++ e ∧
      e.map (fun s => s.name) = chunks.map (fun c => c.name) ∧
      ∀ s ∈ e, s.defined = true ∧
        (s.scope = SymScope.Linkage ↔ s.name = BUILTIN_CHOCOPY_MAIN) := by
  induction chunks with
  | nil => intro st; exact ⟨[], by simp, rfl, by simp⟩
  | cons c rest ih =>
    intro st
    simp only [List.foldl_cons]
    obtain ⟨e, he1, he2, he3⟩ := ih (placeChunk st c)
    rw [placeChunk_symbols] at he1
    refine ⟨{ name := c.name,
              value := alignUp (sectionContent st (chunkSection c)).length
                (chunkAlign c),
              size := c.code.length, kind := chunkKind c,
              scope := chunkScope c, defined := true,
              sec := some (chunkSection c) } :: e, ?_, ?_, ?_⟩
    · rw [he1]
      simp
    · simp [he2]
    · intro s hs
      rcases List.mem_cons.mp hs with rfl | hmem
      · refine ⟨rfl, ?_⟩
        unfold chunkScope
        by_cases hc : c.name = BUILTIN_CHOCOPY_MAIN <;> simp [hc]
      · exact he3 s hmem

theorem pass1_sectionMap_keys (chunks : List Chunk) :
    ∀ st : ObjState,
      ((chunks.foldl placeChunk st).sectionMap).map Prod.fst =
        chunks.reverse.map (fun c => c.name) ++
          st.sectionMap.map Prod.fst := by
  induction chunks with
  | nil => intro st; simp
  | cons c rest ih =>
    intro st
    simp only [List.foldl_cons]
    rw [ih (placeChunk st c), placeChunk_sectionMap]
    simp

theorem strName_range_append (n k1 k2 : Nat) :
    (List.range k1).map (fun i => strName (n + i)) ++
      (List.range k2).map (fun i => strName (n + k1 + i)) =
      (List.range (k1 + k2)).map (fun i => strName (n + i)) := by
  rw [List.range_add, List.map_append, List.map_map]
  congr 1
  apply List.map_congr_left
  intro i _
  show strName (n + k1 + i) = strName (n + (k1 + i))
  rw [Nat.add_assoc]

theorem pass2_strSymbols_links (fs : SectionRef) (fo : Nat)
    (params : Nat × RelocKindM × RelocEncodingM × Int)
    (links : List ChunkLink) :
    ∀ (st : ObjState) (n : Nat) (b : ObjState × Nat),
      links.foldlM (emitLink fs fo params) (st, n) = some b →
      ∃ e, b.1.symbols = st.symbols ++ e ∧
        e.map (fun s => s.name) =
          (List.range (links.map linkDataCount).sum).map
            (fun i => strName (n + i)) ∧
        ∀ s ∈ e, s.scope = .Compilation ∧ s.defined = true ∧
          s.kind = SymKind.data ∧ s.sec = some SectionRef.ro := by
  induction links with
  | nil =>
    intro st n b h
    cases h
    exact ⟨[], by simp, by simp, by simp⟩
  | cons l ls ih =>
    intro st n b h
    rw [List.foldlM_cons] at h
    obtain ⟨mid, hmid, hrest⟩ := Option.bind_eq_some.mp h
    cases hl : l.to with
    | Symbol name a =>
      rw [emitLink_symbol_spec fs fo params st n l name a hl] at hmid
      cases hs : symbolIdFrom st.symbols name with
      | none => rw [hs] at hmid; cases hmid
      | some sid =>
        rw [hs] at hmid
        cases hmid
        obtain ⟨e, he1, he2, he3⟩ := ih _ _ b hrest
        refine ⟨e, by simpa using he1, ?_, he3⟩
        rw [he2]
        simp [linkDataCount, hl]
    | Data bytes =>
      rw [emitLink_data_spec fs fo params st n l bytes hl] at hmid
      cases hmid
      obtain ⟨e, he1, he2, he3⟩ := ih _ _ b hrest
      refine ⟨{ name := strName n, value := st.ro.length, size := 0,
                kind := .data, scope := .Compilation, defined := true,
                sec := some .ro } :: e, ?_, ?_, ?_⟩
      · rw [he1]
        simp
      · rw [List.map_cons, he2]
        have hsum : ((l :: ls).map linkDataCount).sum =
            1 + (ls.map linkDataCount).sum := by
          simp [linkDataCount, hl]
        have hr1 : List.range 1 = [0] := rfl
        rw [hsum, List.range_add, List.map_append, List.map_map, hr1]
        simp only [List.map_cons, List.map_nil, Nat.add_zero,
          List.singleton_append]
        congr 1
        apply List.map_congr_left
        intro i _
        show strName (n + 1 + i) = strName (n + (1 + i))
        rw [Nat.add_assoc]
      · intro s hs
        rcases List.mem_cons.mp hs with rfl | hmem
        · exact ⟨rfl, rfl, rfl, rfl⟩
        · exact he3 s hmem

theorem pass2_strSymbols_chunks (chunks : List Chunk) :
    ∀ (st : ObjState) (n : Nat) (b : ObjState × Nat),
      chunks.foldlM emitChunkRelocs (st, n) = some b →
      ∃ e, b.1.symbols = st.symbols ++ e ∧
        e.map (fun s => s.name) =
          (List.range (chunks.map countDataLinks).sum).map
            (fun i => strName (n + i)) ∧
        ∀ s ∈ e, s.scope = .Compilation ∧ s.defined = true ∧
          s.kind = SymKind.data ∧ s.sec = some SectionRef.ro := by
  induction chunks with
  | nil =>
    intro st n b h
    cases h
    exact ⟨[], by simp, by simp, by simp⟩
  | cons c cs ih =>
    intro st n b h
    rw [List.foldlM_cons] at h
    obtain ⟨mid, hmid, hrest⟩ := Option.bind_eq_some.mp h
    have hmid2 := pass2Ext_emitChunkRelocs hmid
    unfold emitChunkRelocs at hmid
    cases hm : alookup st.sectionMap c.name with
    | none => rw [hm] at hmid; cases hmid
    | some fo =>
      rw [hm] at hmid
      have hmid3 : c.links.foldlM (emitLink fo.1 fo.2 (chunkRelocParams c))
          (st, n) = some mid := hmid
      obtain ⟨e1, he11, he12, he13⟩ :=
        pass2_strSymbols_links fo.1 fo.2 (chunkRelocParams c) c.links st n
          mid hmid3
      obtain ⟨mid1, mid2⟩ := mid
      have hn2 : mid2 = n + countDataLinks c := hmid2.2
      obtain ⟨e2, he21, he22, he23⟩ := ih mid1 mid2 b hrest
      refine ⟨e1 ++ e2, ?_, ?_, ?_⟩
      · rw [he21, he11, List.append_assoc]
      · rw [List.map_append, he12, he22, hn2]
        have hcd : countDataLinks c = (c.links.map linkDataCount).sum :=
          (sum_linkDataCount c.links).symm ▸ rfl
        rw [show (c :: cs).map countDataLinks = countDataLinks c ::
          cs.map countDataLinks from rfl]
        rw [List.sum_cons]
        rw [← strName_range_append n (countDataLinks c)
          (cs.map countDataLinks).sum]
        congr 1
        rw [hcd]
      · intro s hs
        rcases List.mem_append.mp hs with hmem | hmem
        · exact he13 s hmem
        · exact he23 s hmem

/-- Claim C6: after assembling any `CodeSet` (whose chunk names avoid the
runtime symbol names and name `$chocopy_main` exactly once), the defined
symbols are exactly `$global`, the chunk names, and the synthesized
`$str<N>` names; they avoid the eight declared external runtime symbols;
and a defined symbol has linkage scope exactly when it is
`$chocopy_main`, which is counted exactly once. -/
theorem gen_object_symbol_inventory (cs : CodeSet) (st : ObjState)
    (hA : assembleChunks cs = some st)
    (hExt : ∀ c ∈ cs.chunks, c.name ∉ externalRuntimeSymbols)
    (hMain : (cs.chunks.map fun c => c.name).count BUILTIN_CHOCOPY_MAIN = 1) :
    definedNames st = GLOBAL_SECTION :: (cs.chunks.map (fun c => c.name) ++
      (List.range (totalDataLinks cs)).map strName) ∧
    (∀ x ∈ definedNames st, x ∉ externalRuntimeSymbols) ∧
    (∀ s ∈ st.symbols, s.defined = true →
      (s.scope = SymScope.Linkage ↔ s.name = BUILTIN_CHOCOPY_MAIN)) ∧
    st.symbols.countP isDefinedLinkage = 1 := by
  unfold assembleChunks at hA
  obtain ⟨p, hfold, hp⟩ := Option.map_eq_some'.mp hA
  obtain ⟨e2, he21, he22, he23⟩ :=
    pass2_strSymbols_chunks cs.chunks (pass1 cs) 0 p hfold
  obtain ⟨e1, he11, he12, he13⟩ :=
    pass1_symbols_names cs.chunks (initState cs.global_size)
  have hps : pass1 cs = cs.chunks.foldl placeChunk (initState cs.global_size) :=
    rfl
  have hsyms : st.symbols = ((initState cs.global_size).symbols ++ e1) ++ e2 := by
    rw [← hp, he21, hps, he11]
  have htot : totalDataLinks cs = (cs.chunks.map countDataLinks).sum := rfl
  have he22' : e2.map (fun s => s.name) =
      (List.range (totalDataLinks cs)).map strName := by
    rw [he22, htot]
    apply List.map_congr_left
    intro i _
    show strName (0 + i) = strName i
    rw [Nat.zero_add]
  have hdn : definedNames st = GLOBAL_SECTION ::
      (cs.chunks.map (fun c => c.name) ++
        (List.range (totalDataLinks cs)).map strName) := by
    unfold definedNames
    rw [hsyms, List.filter_append, List.filter_append, initState_symbols,
      List.filter_append]
    have hfext : (externalRuntimeSymbols.map importSymbolRec).filter
        (fun s => s.defined) = [] := by
      rw [List.filter_eq_nil_iff]
      intro a ha
      obtain ⟨x, hx, rfl⟩ := List.mem_map.mp ha
      simp [importSymbolRec]
    have hfe1 : e1.filter (fun s => s.defined) = e1 :=
      List.filter_eq_self.mpr fun s hs => (he13 s hs).1
    have hfe2 : e2.filter (fun s => s.defined) = e2 :=
      List.filter_eq_self.mpr fun s hs => (he23 s hs).2.1
    rw [hfext, hfe1, hfe2]
    simp only [List.filter_cons, List.filter_nil, List.nil_append,
      List.map_append, List.map_cons, List.map_nil]
    rw [he12, he22']
    simp
  refine ⟨hdn, ?_, ?_, ?_⟩
  · intro x hx
    rw [hdn] at hx
    rcases List.mem_cons.mp hx with rfl | hx2
    · decide
    · rcases List.mem_append.mp hx2 with hx3 | hx3
      · obtain ⟨c, hc, rfl⟩ := List.mem_map.mp hx3
        exact hExt c hc
      · obtain ⟨i, _, rfl⟩ := List.mem_map.mp hx3
        exact strName_not_external i
  · intro s hs hdef
    rw [hsyms] at hs
    rcases List.mem_append.mp hs with hs1 | hs2
    · rcases List.mem_append.mp hs1 with hs3 | hs4
      · rw [initState_symbols] at hs3
        rcases List.mem_append.mp hs3 with hs5 | hs6
        · obtain ⟨x, hx, rfl⟩ := List.mem_map.mp hs5
          simp [importSymbolRec] at hdef
        · rw [List.mem_singleton] at hs6
          subst hs6
          constructor
          · intro h
            exact absurd h (by simp)
          · intro h
            exact absurd h (by simp [GLOBAL_SECTION, BUILTIN_CHOCOPY_MAIN])
      · exact (he13 s hs4).2
    · obtain ⟨hsc, -, -, -⟩ := he23 s hs2
      have hnm : s.name ∈ e2.map (fun s => s.name) :=
        List.mem_map_of_mem _ hs2
      rw [he22'] at hnm
      obtain ⟨i, _, hni⟩ := List.mem_map.mp hnm
      constructor
      · intro h
        rw [hsc] at h
        cases h
      · intro h
        exact absurd (hni.trans h) (strName_ne_main i)
  · rw [hsyms, List.countP_append, List.countP_append]
    have h0 : (initState cs.global_size).symbols.countP isDefinedLinkage
        = 0 := by
      rw [initState_symbols, List.countP_append]
      have ha : (externalRuntimeSymbols.map importSymbolRec).countP
          isDefinedLinkage = 0 := by
        rw [List.countP_eq_zero]
        intro a hamem
        obtain ⟨x, hx, rfl⟩ := List.mem_map.mp hamem
        simp [isDefinedLinkage, importSymbolRec]
      have hb : ([{ name := GLOBAL_SECTION, value := 0, size := cs.global_size,
                    kind := .data, scope := .Compilation, defined := true,
                    sec := some .bss }] :
          List SymbolRec).countP isDefinedLinkage = 0 := by
        simp [List.countP_cons, isDefinedLinkage]
      rw [ha, hb]
    have h1 : e1.countP isDefinedLinkage = 1 := by
      have hcongr : ∀ s ∈ e1, isDefinedLinkage s = true ↔
          (s.name == BUILTIN_CHOCOPY_MAIN) = true := by
        intro s hs
        obtain ⟨hdef, hiff⟩ := he13 s hs
        unfold isDefinedLinkage
        rw [hdef]
        cases hsc : s.scope with
        | Linkage =>
          have hname : s.name = BUILTIN_CHOCOPY_MAIN := hiff.mp hsc
          simp [hname]
        | Compilation =>
          have hne : s.name ≠ BUILTIN_CHOCOPY_MAIN := by
            intro h
            have hl := hiff.mpr h
            rw [hsc] at hl
            cases hl
          simp [beq_iff_eq, hne]
      calc e1.countP isDefinedLinkage
          = e1.countP (fun s => s.name == BUILTIN_CHOCOPY_MAIN) :=
            List.countP_congr hcongr
        _ = (e1.map (fun s => s.name)).countP (· == BUILTIN_CHOCOPY_MAIN) := by
            rw [List.countP_map]
            rfl
        _ = (cs.chunks.map fun c => c.name).countP
              (· == BUILTIN_CHOCOPY_MAIN) := by rw [he12]
        _ = 1 := by rw [← List.count_eq_countP]; exact hMain
    have h2 : e2.countP isDefinedLinkage = 0 := by
      rw [List.countP_eq_zero]
      intro s hs
      obtain ⟨hsc, -, -, -⟩ := he23 s hs
      simp [isDefinedLinkage, hsc]
    rw [h0, h1, h2]

theorem gen_object_symbol_inventory_witness :
    ∃ st, assembleChunks exC6 = some st ∧
      definedNames st = GLOBAL_SECTION ::
        (exC6.chunks.map (fun c => c.name) ++
          (List.range (totalDataLinks exC6)).map strName) ∧
      st.symbols.countP isDefinedLinkage = 1 := by
  cases hA : assembleChunks exC6 with
  | none => exact absurd hA (by decide)
  | some st =>
    have h := gen_object_symbol_inventory exC6 st hA (by decide) (by decide)
    exact ⟨st, rfl, h.1, h.2.2.2⟩

/-! ## Claim C7 -/

theorem pass2_links_succeed (fs : SectionRef) (fo : Nat)
    (params : Nat × RelocKindM × RelocEncodingM × Int)
    (links : List ChunkLink) :
    ∀ acc : ObjState × Nat,
      (∀ l ∈ links, ∀ name a, l.to = ChunkLinkTarget.Symbol name a →
        name ∈ acc.1.symbols.map fun s => s.name) →
      (links.foldlM (emitLink fs fo params) acc).isSome := by
  induction links with
  | nil => intro acc _; exact rfl
  | cons l ls ih =>
    intro acc hnames
    obtain ⟨st, n⟩ := acc
    rw [List.foldlM_cons]
    have hstep : ∃ mid, emitLink fs fo params (st, n) l = some mid := by
      cases hl : l.to with
      | Data bytes =>
        exact ⟨_, emitLink_data_spec fs fo params st n l bytes hl⟩
      | Symbol name a =>
        have hmem : name ∈ st.symbols.map fun s => s.name :=
          hnames l (List.mem_cons_self l ls) name a hl
        have hsome : (symbolIdFrom st.symbols name).isSome := by
          rw [symbolIdFrom_isSome]
          obtain ⟨s, hs, hsn⟩ := List.mem_map.mp hmem
          exact ⟨s, hs, hsn⟩
        obtain ⟨sid, hsid⟩ := Option.isSome_iff_exists.mp hsome
        rw [emitLink_symbol_spec fs fo params st n l name a hl, hsid]
        exact ⟨_, rfl⟩
    obtain ⟨mid, hmid⟩ := hstep
    rw [hmid]
    have hext := (pass2Ext_emitLink hmid).1
    obtain ⟨e, he⟩ := hext.symbols
    refine (ih mid ?_)
    intro l' hl' name a ht
    have := hnames l' (List.mem_cons_of_mem l hl') name a ht
    rw [he, List.map_append]
    exact List.mem_append_left _ this

theorem pass2_chunks_succeed (chunks : List Chunk) :
    ∀ acc : ObjState × Nat,
      (∀ c ∈ chunks, (alookup acc.1.sectionMap c.name).isSome) →
      (∀ c ∈ chunks, ∀ l ∈ c.links, ∀ name a,
        l.to = ChunkLinkTarget.Symbol name a →
        name ∈ acc.1.symbols.map fun s => s.name) →
      (chunks.foldlM emitChunkRelocs acc).isSome := by
  induction chunks with
  | nil => intro acc _ _; exact rfl
  | cons c cs ih =>
    intro acc hsec hnames
    rw [List.foldlM_cons]
    have hcsec := hsec c (List.mem_cons_self c cs)
    obtain ⟨fo, hfo⟩ := Option.isSome_iff_exists.mp hcsec
    have hstep : ∃ mid, emitChunkRelocs acc c = some mid := by
      unfold emitChunkRelocs
      rw [hfo]
      have := pass2_links_succeed fo.1 fo.2 (chunkRelocParams c) c.links acc
        (fun l hl name a ht => hnames c (List.mem_cons_self c cs) l hl name a ht)
      exact Option.isSome_iff_exists.mp this
    obtain ⟨mid, hmid⟩ := hstep
    rw [hmid]
    have hext := (pass2Ext_emitChunkRelocs hmid).1
    obtain ⟨e, he⟩ := hext.symbols
    refine ih mid ?_ ?_
    · intro c' hc'
      rw [hext.sectionMap]
      exact hsec c' (List.mem_cons_of_mem c hc')
    · intro c' hc' l hl name a ht
      have := hnames c' (List.mem_cons_of_mem c hc') l hl name a ht
      rw [he, List.map_append]
      exact List.mem_append_left _ this

/-- Claim C7: when every `Symbol` link target names another chunk of the
`CodeSet` or a declared external runtime symbol — including targets that
name chunks appearing later in the chunk sequence — relocation emission
never hits a failed `symbol_id` lookup (nor a missing `section_map`
entry), because the first pass defines all chunk symbols before the
second pass emits any relocation: the whole assembly succeeds. -/
theorem gen_object_two_pass_resolution (cs : CodeSet)
    (h : linkTargetsKnown cs = true) : (assembleChunks cs).isSome := by
  have hps : pass1 cs = cs.chunks.foldl placeChunk (initState cs.global_size) :=
    rfl
  have hnames1 : (pass1 cs).symbols.map (fun s => s.name) =
      (externalRuntimeSymbols ++ [GLOBAL_SECTION]) ++
        cs.chunks.map (fun c => c.name) := by
    obtain ⟨e1, he11, he12, he13⟩ :=
      pass1_symbols_names cs.chunks (initState cs.global_size)
    rw [hps, he11, List.map_append, he12, initState_symbols]
    have hcomp : ∀ x ∈ externalRuntimeSymbols,
        ((fun s => s.name) ∘ importSymbolRec) x = x := fun x _ => rfl
    rw [List.map_append, List.map_map, List.map_congr_left hcomp]
    simp
  have hsec : ∀ c ∈ cs.chunks,
      (alookup (pass1 cs, 0).1.sectionMap c.name).isSome := by
    intro c hc
    rw [alookup_isSome_iff]
    show c.name ∈ (pass1 cs).sectionMap.map Prod.fst
    rw [hps, pass1_sectionMap_keys, initState_sectionMap]
    simp only [List.map_nil, List.append_nil]
    exact List.mem_map_of_mem _ (List.mem_reverse.mpr hc)
  have htargets : ∀ c ∈ cs.chunks, ∀ l ∈ c.links, ∀ name a,
      l.to = ChunkLinkTarget.Symbol name a →
      name ∈ (pass1 cs, 0).1.symbols.map fun s => s.name := by
    intro c hc l hl name a ht
    unfold linkTargetsKnown at h
    rw [List.all_eq_true] at h
    have hc2 := h c hc
    rw [List.all_eq_true] at hc2
    have hl2 := hc2 l hl
    rw [ht] at hl2
    show name ∈ (pass1 cs).symbols.map fun s => s.name
    rw [hnames1]
    have hl3 : (cs.chunks.map fun c' => c'.name).contains name = true ∨
        externalRuntimeSymbols.contains name = true := by
      simpa using hl2
    rcases hl3 with h3 | h3
    · exact List.mem_append_right _ (by simpa using h3)
    · exact List.mem_append_left _ (List.mem_append_left _ (by simpa using h3))
  have hall := pass2_chunks_succeed cs.chunks (pass1 cs, 0) hsec htargets
  obtain ⟨b, hb⟩ := Option.isSome_iff_exists.mp hall
  unfold assembleChunks
  rw [hb]
  rfl

theorem gen_object_two_pass_resolution_witness :
    linkTargetsKnown exC7 = true ∧ (assembleChunks exC7).isSome :=
  ⟨by decide, gen_object_two_pass_resolution exC7 (by decide)⟩
